import Mathlib

/-!
Verification development for the image-storage service
(`src/lib/storage.ts`, `images.service.ts`, `images.controller.ts`).

The storage layer is embedded shallowly:
* Node `path` (posix) string functions — `normalize`, `join`, `resolve`,
  `dirname` — are modelled over `List Char`, following the algorithm of
  Node `lib/path.js` (`normalizeString` with an `allowAboveRoot` flag).
* The filesystem is a state: an association list from absolute path to
  byte content, plus a list of existing directories, plus timestamp
  oracles for `birthtime` / `mtime`.
* Fallible operations return `Except StorageError` / `Option`, mirroring
  thrown `StorageError`s and rejected promises.
-/

namespace ImageStorage

/-- The `..` segment. -/
def dd : List Char := ['.', '.']

/-- Split a character list on the posix separator `/`
(the semantics of `String.prototype.split("/")`). -/
def splitSeg : List Char → List (List Char)
  | [] => [[]]
  | c :: rest =>
    match splitSeg rest with
    | [] => [[c]]
    | s :: ss => if c = '/' then [] :: s :: ss else (c :: s) :: ss

/-- Join segments with `/` (the semantics of `Array.prototype.join("/")`). -/
def joinSegsC : List (List Char) → List Char
  | [] => []
  | [s] => s
  | s :: s2 :: rest => s ++ '/' :: joinSegsC (s2 :: rest)

/-- `hasPrefixL p l` decides whether `p` begins `l`. -/
def hasPrefixL : List Char → List Char → Bool
  | [], _ => true
  | _ :: _, [] => false
  | p :: ps, c :: cs => p = c && hasPrefixL ps cs

/-- `hasInfixL pat l` decides whether `pat` occurs contiguously in `l`
(the semantics of `String.prototype.includes`). -/
def hasInfixL (pat : List Char) : List Char → Bool
  | [] => hasPrefixL pat []
  | c :: cs => hasPrefixL pat (c :: cs) || hasInfixL pat cs

/-- Whether the path begins with the separator (absolute-path marker). -/
def isAbsL (cs : List Char) : Bool := hasPrefixL ['/'] cs

/-- Whether the path ends with the separator. -/
def endsSlashL (cs : List Char) : Bool := hasPrefixL ['/'] cs.reverse

/-- One step of Node `normalizeString`: process a single segment against the
stack of kept segments (head = most recent).  `""` and `"."` are skipped;
`".."` pops a poppable segment, and otherwise is kept only when
`allowAbove` is set (relative paths). -/
def stepSeg (allowAbove : Bool) (acc : List (List Char)) (seg : List Char) :
    List (List Char) :=
  if seg = [] ∨ seg = ['.'] then acc
  else if seg = dd then
    match acc with
    | [] => if allowAbove then [dd] else []
    | t :: rest => if t = dd then (if allowAbove then dd :: t :: rest else t :: rest) else rest
  else seg :: acc

/-- The kept segments of a path, in order (Node `normalizeString`). -/
def normCore (allowAbove : Bool) (segs : List (List Char)) : List (List Char) :=
  (segs.foldl (stepSeg allowAbove) []).reverse

/-- Node `posix.normalize` over characters.  (Written without `let` so the
branches can be rewritten in proofs; the shared subterm is the normalized
core `joinSegsC (normCore (!isAbsL cs) (splitSeg cs))`.) -/
def normalizeL (cs : List Char) : List Char :=
  if cs = [] then ['.']
  else if joinSegsC (normCore (!isAbsL cs) (splitSeg cs)) = [] then
    (if isAbsL cs then ['/'] else if endsSlashL cs then ['.', '/'] else ['.'])
  else if isAbsL cs then
    '/' :: (if endsSlashL cs then joinSegsC (normCore (!isAbsL cs) (splitSeg cs)) ++ ['/']
            else joinSegsC (normCore (!isAbsL cs) (splitSeg cs)))
  else
    (if endsSlashL cs then joinSegsC (normCore (!isAbsL cs) (splitSeg cs)) ++ ['/']
     else joinSegsC (normCore (!isAbsL cs) (splitSeg cs)))

/-- Node `posix.normalize`. -/
def normalize (p : String) : String := (normalizeL p.toList).asString

/-- Node `posix.join` restricted to two arguments, as called by
`getFullPath` (`join(config.imageStoragePath, relativePath)`). -/
def joinL (a b : List Char) : List Char :=
  if a = [] ∧ b = [] then ['.']
  else if a = [] then normalizeL b
  else if b = [] then normalizeL a
  else normalizeL (a ++ '/' :: b)

/-- Node `posix.join` of two strings. -/
def joinP (a b : String) : String := (joinL a.toList b.toList).asString

/-- Node `posix.resolve` with one argument and an explicit working
directory (the implicit `process.cwd()`). -/
def resolveL (cwd p : List Char) : List Char :=
  if isAbsL p then
    '/' :: joinSegsC (normCore false (splitSeg (p ++ ['/'])))
  else if cwd = [] then
    (if joinSegsC (normCore true (splitSeg (if p = [] then [] else p ++ ['/']))) ≠ [] then
      joinSegsC (normCore true (splitSeg (if p = [] then [] else p ++ ['/'])))
    else ['.'])
  else if isAbsL cwd then
    '/' :: joinSegsC (normCore false (splitSeg (cwd ++ '/' :: (if p = [] then [] else p ++ ['/']))))
  else
    (if joinSegsC (normCore true (splitSeg (cwd ++ '/' :: (if p = [] then [] else p ++ ['/'])))) ≠ [] then
      joinSegsC (normCore true (splitSeg (cwd ++ '/' :: (if p = [] then [] else p ++ ['/']))))
    else ['.'])

/-- Node `posix.resolve` of one string, given the working directory. -/
def resolveP (cwd p : String) : String := (resolveL cwd.toList p.toList).asString

/-- Node `posix.dirname`. -/
def dirnameL (cs : List Char) : List Char :=
  if cs = [] then ['.']
  else
    let hasRoot := isAbsL cs
    let r1 := cs.reverse.dropWhile (fun c => c = '/')
    let r2 := r1.dropWhile (fun c => c ≠ '/')
    if r2.length ≤ 1 then (if hasRoot then ['/'] else ['.'])
    else if hasRoot ∧ r2.length = 2 then ['/', '/']
    else (r2.drop 1).reverse

/-- Node `posix.dirname` on strings. -/
def dirnameP (s : String) : String := (dirnameL s.toList).asString

/-- `StorageError` from `storage.error.ts` (the `cause` chain is dropped:
only the message participates in observable behaviour). -/
structure StorageError where
  message : String
deriving Repr, DecidableEq

/-- `validatePath` from `storage.ts`: reject when the normalized path
contains `..` (as a substring, via `String.prototype.includes`) or starts
with `/`. -/
def validatePath (relativePath : String) : Except StorageError Unit :=
  if hasInfixL dd (normalizeL relativePath.toList) || isAbsL (normalizeL relativePath.toList) then
    .error ⟨"不正なパスが指定されました"⟩
  else .ok ()

/-- The ambient configuration: `config.imageStoragePath` (resolved against
the process working directory at startup) and the working directory used by
`path.resolve`. -/
structure Env where
  imageStoragePath : String
  cwd : String

/-- `getFullPath` from `storage.ts`: validate, then
`resolve(join(config.imageStoragePath, relativePath))`. -/
def getFullPath (env : Env) (relativePath : String) : Except StorageError String :=
  match validatePath relativePath with
  | .error e => .error e
  | .ok _ => .ok (resolveP env.cwd (joinP env.imageStoragePath relativePath))

/-- The filesystem state: `files` maps absolute paths to byte contents
(association list, first binding wins), `dirs` lists existing directories,
and `birth` / `mtime` are timestamp oracles read by `stat` during the
listing walk (milliseconds, `Date.getTime`). -/
structure FSState where
  files : List (String × List Nat)
  dirs : List String
  birth : String → Int
  mtime : String → Int

/-- Whether `p` is a regular file in the state. -/
def isFileFS (fs : FSState) (p : String) : Bool := (fs.files.lookup p).isSome

/-- Model of `fs.stat`: succeeds on a regular file (where `size` is the byte
length) or on a directory; fails otherwise.  The `Bool` marks a directory. -/
def statFS (fs : FSState) (p : String) : Option (Bool × Nat) :=
  match fs.files.lookup p with
  | some d => some (false, d.length)
  | none => if fs.dirs.contains p then some (true, 0) else none

/-- The chain `s, dirname s, dirname (dirname s), …` up to the fixpoint
(`/` or `.`), with fuel bounded by the string length. -/
def dirChainAux : Nat → String → List String
  | 0, s => [s]
  | n + 1, s =>
    let d := dirnameP s
    if d = s then [s] else s :: dirChainAux n d

/-- All directories `mkdir -p dir` has to traverse. -/
def dirChain (s : String) : List String := dirChainAux (s.length + 1) s

/-- Model of `mkdir(dir, { recursive: true })`: fails when the directory or
one of its ancestors already exists as a regular file, otherwise records the
whole chain as existing directories. -/
def mkdirRecFS (fs : FSState) (dir : String) : Option FSState :=
  let chain := dirChain dir
  if chain.any (isFileFS fs) then none
  else some { fs with dirs := chain ++ fs.dirs }

/-- Model of `fs.writeFile`: fails when the target is an existing directory
or its parent directory does not exist; otherwise overwrites the binding. -/
def writeFileFS (fs : FSState) (p : String) (data : List Nat) : Option FSState :=
  if fs.dirs.contains p then none
  else if fs.dirs.contains (dirnameP p) then
    some { fs with files := (p, data) :: fs.files.filter (fun e => e.1 != p) }
  else none

/-- Model of `fs.readFile`: fails on a directory or a missing file. -/
def readFileFS (fs : FSState) (p : String) : Option (List Nat) :=
  if fs.dirs.contains p then none else fs.files.lookup p

/-- Model of `fs.unlink`: fails on a directory or a missing file, otherwise
removes the binding. -/
def unlinkFS (fs : FSState) (p : String) : Option FSState :=
  if fs.dirs.contains p then none
  else if (fs.files.lookup p).isSome then
    some { fs with files := fs.files.filter (fun e => e.1 != p) }
  else none

/-- `saveFile` from `storage.ts`: resolve the full path, create the parent
directories, write, `stat`, and return `{path, size}` together with the new
state; every I/O failure is wrapped into a `StorageError`. -/
def saveFile (env : Env) (fs : FSState) (relativePath : String)
    (data : List Nat) : Except StorageError (FSState × String × Nat) :=
  match getFullPath env relativePath with
  | .error e => .error e
  | .ok fullPath =>
    match mkdirRecFS fs (dirnameP fullPath) with
    | none => .error ⟨s!"ファイルの保存に失敗しました: {relativePath}"⟩
    | some fs1 =>
      match writeFileFS fs1 fullPath data with
      | none => .error ⟨s!"ファイルの保存に失敗しました: {relativePath}"⟩
      | some fs2 =>
        match statFS fs2 fullPath with
        | none => .error ⟨s!"ファイルの保存に失敗しました: {relativePath}"⟩
        | some st => .ok (fs2, relativePath, st.2)

/-- `readFileFromStorage` from `storage.ts`. -/
def readFileFromStorage (env : Env) (fs : FSState) (relativePath : String) :
    Except StorageError (List Nat) :=
  match getFullPath env relativePath with
  | .error e => .error e
  | .ok fullPath =>
    match readFileFS fs fullPath with
    | some d => .ok d
    | none => .error ⟨s!"ファイルの読み込みに失敗しました: {relativePath}"⟩

/-- `deleteFile` from `storage.ts`. -/
def deleteFile (env : Env) (fs : FSState) (relativePath : String) :
    Except StorageError FSState :=
  match getFullPath env relativePath with
  | .error e => .error e
  | .ok fullPath =>
    match unlinkFS fs fullPath with
    | some fs1 => .ok fs1
    | none => .error ⟨s!"ファイルの削除に失敗しました: {relativePath}"⟩

/-- `fileExists` from `storage.ts`: `stat` under a `try` that maps every
failure to `false`; the path validation in `getFullPath` runs outside the
`try` and still propagates. -/
def fileExists (env : Env) (fs : FSState) (relativePath : String) :
    Except StorageError Bool :=
  match getFullPath env relativePath with
  | .error e => .error e
  | .ok fullPath => .ok (statFS fs fullPath).isSome

/-- Split a character list on an arbitrary separator
(the semantics of `String.prototype.split(sep)` for a one-character
separator). -/
def splitOnC (sep : Char) : List Char → List (List Char)
  | [] => [[]]
  | c :: rest =>
    match splitOnC sep rest with
    | [] => [[c]]
    | s :: ss => if c = sep then [] :: s :: ss else (c :: s) :: ss

/-- `filename.toLowerCase().split(".").pop() ?? ""` — the key looked up by
`getMimeType` (`toLowerCase` modelled as ASCII per-character lowering). -/
def extKey (filename : String) : String :=
  (((splitOnC '.' (filename.toList.map Char.toLower)).getLast?).getD []).asString

/-- The fixed extension table of `getMimeType`. -/
def mimeTypes : List (String × String) :=
  [("jpg", "image/jpeg"), ("jpeg", "image/jpeg"), ("png", "image/png"),
   ("gif", "image/gif"), ("webp", "image/webp"), ("svg", "image/svg+xml"),
   ("bmp", "image/bmp"), ("ico", "image/x-icon")]

/-- `getMimeType` from `storage.ts`:
`filename.toLowerCase().split(".").pop() ?? ""`, then the table with
`application/octet-stream` as fallback. -/
def getMimeType (filename : String) : String :=
  (mimeTypes.lookup (extKey filename)).getD "application/octet-stream"

/-- `FileInfo` from `storage.ts`; timestamps in milliseconds. -/
structure FileInfo where
  path : String
  filename : String
  size : Nat
  uploadedAt : Int
  updatedAt : Int
deriving Repr, DecidableEq

/-- Model of `String.prototype.localeCompare` used by the listing sort,
taken as codepoint (lexicographic) comparison — the collation of the
default locale agrees with it on the ASCII paths the service stores. -/
def strCmpInt (a b : String) : Int := if a < b then -1 else if b < a then 1 else 0

/-- The comparator of `listAllFiles`:
`b.updatedAt - a.updatedAt`, ties broken by `b.path.localeCompare(a.path)`. -/
def fileCmp (a b : FileInfo) : Int :=
  let timeDiff := b.updatedAt - a.updatedAt
  if timeDiff ≠ 0 then timeDiff else strCmpInt b.path a.path

/-- `a` may stay before `b` under the comparator. -/
def fileLe (a b : FileInfo) : Bool := fileCmp a b ≤ 0

/-- `Array.prototype.sort` with the comparator of `listAllFiles`, modelled
as a stable merge sort (the ECMAScript sort is stable and, under this total
comparator, produces exactly the ordered sequence). -/
def sortFiles (files : List FileInfo) : List FileInfo := files.mergeSort fileLe

/-- The name of `s` as a direct child of `dir`, if it is one. -/
def immediateName (dir s : String) : Option String :=
  if hasPrefixL (dir.toList ++ ['/']) s.toList then
    let rest := s.toList.drop (dir.toList.length + 1)
    if rest ≠ [] ∧ ¬ '/' ∈ rest then some rest.asString else none
  else none

/-- Model of `fs.readdir(dir, { withFileTypes: true })`: the direct children
of `dir` present in the state, tagged with `isDirectory`. -/
def readdirFS (fs : FSState) (dir : String) : List (String × Bool) :=
  (fs.files.map (·.1)).filterMap (fun s => (immediateName dir s).map ((·, false)))
    ++ fs.dirs.filterMap (fun s => (immediateName dir s).map ((·, true)))

/-- Model of `node:path` `relative(root, full)` for a `full` that lies
textually under `root` — exactly the shape the walk produces — where it
strips the `root ++ "/"` prefix. -/
def relativeUnder (root full : String) : String :=
  if hasPrefixL (root.toList ++ ['/']) full.toList then
    (full.toList.drop (root.toList.length + 1)).asString
  else full

/-- `getAllFilesRecursive` from `storage.ts`: walk the tree below `dir`,
emitting one `FileInfo` per regular file, with `path` relative to the
storage root; recursion depth is bounded by explicit fuel. -/
def walkFS (fs : FSState) (root : String) : Nat → String → List FileInfo
  | 0, _ => []
  | fuel + 1, dir =>
    (readdirFS fs dir).flatMap (fun e =>
      let full := dir ++ "/" ++ e.1
      if e.2 then walkFS fs root fuel full
      else
        match fs.files.lookup full with
        | some d =>
          [{ path := relativeUnder root full, filename := e.1,
             size := d.length, uploadedAt := fs.birth full,
             updatedAt := fs.mtime full }]
        | none => [])

/-- `listAllFiles` from `storage.ts`: recursive walk from the storage root,
then the descending sort. -/
def listAllFiles (env : Env) (fs : FSState) (fuel : Nat) : List FileInfo :=
  sortFiles (walkFS fs env.imageStoragePath fuel env.imageStoragePath)

/-- One image record of the list response (`images.service.ts`; the
ISO-string rendering of the two timestamps is kept as milliseconds). -/
structure ImageItem where
  path : String
  filename : String
  size : Nat
  uploadedAt : Int
  updatedAt : Int
deriving Repr, DecidableEq

/-- Pagination block of the list response. -/
structure Pagination where
  total : Nat
  page : Nat
  limit : Nat
  totalPages : Nat
deriving Repr, DecidableEq

/-- The list response of `getImages`. -/
structure ListImagesResponse where
  images : List ImageItem
  pagination : Pagination
deriving Repr, DecidableEq

/-- `Math.ceil(total / limit)` for natural operands with `limit > 0`. -/
def ceilDivJ (total limit : Nat) : Nat := (total + limit - 1) / limit

/-- Conversion applied by `getImages` to each listed file. -/
def imageOfFile (f : FileInfo) : ImageItem :=
  { path := f.path, filename := f.filename, size := f.size,
    uploadedAt := f.uploadedAt, updatedAt := f.updatedAt }

/-- `getImages` from `images.service.ts`: list everything, compute
`total`, `totalPages = ceil(total/limit)`, and slice
`[(page-1)*limit, (page-1)*limit + limit)`. -/
def getImages (page limit : Nat) (env : Env) (fs : FSState) (fuel : Nat) :
    ListImagesResponse :=
  let allFiles := listAllFiles env fs fuel
  let total := allFiles.length
  let totalPages := ceilDivJ total limit
  let skip := (page - 1) * limit
  let paginatedFiles := (allFiles.drop skip).take limit
  { images := paginatedFiles.map imageOfFile,
    pagination := { total := total, page := page, limit := limit,
                    totalPages := totalPages } }

/-- The last `/`-separated component of a path
(`path.split("/").pop() ?? fallback` from `images.service.ts`). -/
def lastComponent (path fallback : String) : String :=
  (((splitOnC '/' path.toList).getLast?).map List.asString).getD fallback

/-- `uploadImage` from `images.service.ts`: save, then stamp both
timestamps with the wall clock `now`. -/
def uploadImage (env : Env) (fs : FSState) (path : String)
    (fileBuffer : List Nat) (now : Int) :
    Except StorageError (FSState × ImageItem) :=
  match saveFile env fs path fileBuffer with
  | .error e => .error e
  | .ok (fs1, _, size) =>
    .ok (fs1, { path := path, filename := lastComponent path "unknown",
                size := size, uploadedAt := now, updatedAt := now })

/-- `getImage` from `images.service.ts`: read the bytes and derive filename
and MIME type. -/
def getImage (env : Env) (fs : FSState) (path : String) :
    Except StorageError (List Nat × String × String) :=
  match readFileFromStorage env fs path with
  | .error e => .error e
  | .ok buffer =>
    let filename := lastComponent path "image"
    .ok (buffer, filename, getMimeType filename)

/-- `deleteImage` from `images.service.ts`. -/
def deleteImage (env : Env) (fs : FSState) (path : String) :
    Except StorageError FSState :=
  deleteFile env fs path

end ImageStorage

namespace ImageStorage

/-- A configuration as produced at startup: storage root `/srv/uploads`
resolved against working directory `/srv`. -/
def testEnv : Env := { imageStoragePath := "/srv/uploads", cwd := "/srv" }

/-- The empty storage state. -/
def fs0 : FSState := { files := [], dirs := [], birth := fun _ => 0, mtime := fun _ => 0 }

/-- The state after saving `[1,2,3]` at `a/b.png` in the empty store. -/
def fsA : FSState :=
  { fs0 with files := [("/srv/uploads/a/b.png", [1, 2, 3])],
             dirs := dirChain "/srv/uploads/a" }

/-- A two-file store used by witnesses, with distinct modification times. -/
def fsB : FSState :=
  { files := [("/srv/uploads/x.png", [1]), ("/srv/uploads/y.png", [2, 3])],
    dirs := ["/srv/uploads", "/srv", "/"],
    birth := fun _ => 0,
    mtime := fun p => if p = "/srv/uploads/x.png" then 5 else 3 }

example : normalize "" = "." := by decide
example : normalize "a/../b" = "b" := by decide
example : normalize "a/.." = "." := by decide
example : normalize "../a" = "../a" := by decide
example : normalize "/a//b/./c/" = "/a/b/c/" := by decide
example : normalize "a/b/.." = "a" := by decide
example : resolveP "/srv" "uploads" = "/srv/uploads" := by decide
example : resolveP "/srv" "/a/b/" = "/a/b" := by decide
example : resolveP "/srv" "" = "/srv" := by decide
example : joinP "/srv/uploads" "a/b.png" = "/srv/uploads/a/b.png" := by decide
example : joinP "/srv/uploads" "" = "/srv/uploads" := by decide
example : dirnameP "/a/b/c" = "/a/b" := by decide
example : dirnameP "/abc" = "/" := by decide
example : dirnameP "abc" = "." := by decide
example : dirnameP "a/b/" = "a" := by decide
example : dirnameP "/" = "/" := by decide
example : validatePath "a/b.png" = .ok () := by rfl
example : validatePath "../x" = .error ⟨"不正なパスが指定されました"⟩ := by rfl
example : validatePath "/etc/passwd" = .error ⟨"不正なパスが指定されました"⟩ := by rfl
example : validatePath "report..v2.png" = .error ⟨"不正なパスが指定されました"⟩ := by rfl
example : validatePath "a/../b" = .ok () := by rfl

/-- Removing all bindings of a key makes its lookup fail. -/
theorem lookup_filter_bne (p : String) :
    ∀ l : List (String × List Nat), (l.filter (fun e => e.1 != p)).lookup p = none := by
  intro l
  induction l with
  | nil => rfl
  | cons e t ih =>
    rcases e with ⟨k, v⟩
    by_cases hk : k = p
    · subst hk
      simpa [List.filter_cons] using ih
    · have hpk : (p == k) = false := by simpa using Ne.symm hk
      simp [List.filter_cons, List.lookup, hk, hpk, ih]

/-- C3: Round-trip — whenever `saveFile` succeeds at a path, reading that
path from the resulting state returns exactly the saved bytes. -/
theorem saveFile_readFile_roundtrip (env : Env) (fs : FSState) (p : String)
    (data : List Nat) (fs' : FSState) (pr : String) (sz : Nat)
    (h : saveFile env fs p data = .ok (fs', pr, sz)) :
    readFileFromStorage env fs' p = .ok data := by
  unfold saveFile at h
  cases hf : getFullPath env p with
  | error e => rw [hf] at h; exact absurd h (by simp)
  | ok full =>
    rw [hf] at h
    dsimp only at h
    cases hm : mkdirRecFS fs (dirnameP full) with
    | none => rw [hm] at h; exact absurd h (by simp)
    | some fs1 =>
      rw [hm] at h
      dsimp only at h
      cases hw : writeFileFS fs1 full data with
      | none => rw [hw] at h; exact absurd h (by simp)
      | some fs2 =>
        rw [hw] at h
        dsimp only at h
        cases hs : statFS fs2 full with
        | none => rw [hs] at h; exact absurd h (by simp)
        | some st =>
          rw [hs] at h
          dsimp only at h
          have hfs' : fs' = fs2 := by
            simpa using congrArg (fun x => (x.toOption.map Prod.fst).getD fs2) h.symm
          subst hfs'
          unfold writeFileFS at hw
          by_cases hd : fs1.dirs.contains full
          · rw [if_pos hd] at hw; exact absurd hw (by simp)
          · rw [if_neg hd] at hw
            by_cases hpar : fs1.dirs.contains (dirnameP full)
            · rw [if_pos hpar] at hw
              have hfs2 : fs' = { fs1 with files := (full, data) :: fs1.files.filter (fun e => e.1 != full) } := by
                simpa using hw.symm
              have hd' : full ∉ fs1.dirs := by simpa using hd
              unfold readFileFromStorage
              rw [hf]
              unfold readFileFS
              rw [hfs2]
              simp [List.lookup, hd']
            · rw [if_neg hpar] at hw; exact absurd hw (by simp)

/-- Witness for C3 at a concrete input. -/
theorem saveFile_readFile_roundtrip_witness :
    saveFile testEnv fs0 "a/b.png" [1, 2, 3] = .ok (fsA, "a/b.png", 3) ∧
      readFileFromStorage testEnv fsA "a/b.png" = .ok [1, 2, 3] :=
  ⟨rfl, saveFile_readFile_roundtrip testEnv fs0 "a/b.png" [1, 2, 3] fsA "a/b.png" 3 rfl⟩

/-- C7: after a successful `deleteFile`, reading the same path fails with a
`StorageError` and `fileExists` reports `false`. -/
theorem deleteFile_then_read_fails_and_not_exists (env : Env) (fs : FSState)
    (p : String) (fs' : FSState) (h : deleteFile env fs p = .ok fs') :
    (∃ e, readFileFromStorage env fs' p = .error e) ∧
      fileExists env fs' p = .ok false := by
  unfold deleteFile at h
  cases hf : getFullPath env p with
  | error e => rw [hf] at h; exact absurd h (by simp)
  | ok full =>
    rw [hf] at h
    dsimp only at h
    cases hu : unlinkFS fs full with
    | none => rw [hu] at h; exact absurd h (by simp)
    | some fs1 =>
      rw [hu] at h
      dsimp only at h
      have hfs' : fs' = fs1 := by simpa using h.symm
      subst hfs'
      unfold unlinkFS at hu
      by_cases hd : fs.dirs.contains full
      · rw [if_pos hd] at hu; exact absurd hu (by simp)
      · rw [if_neg hd] at hu
        by_cases hex : (fs.files.lookup full).isSome
        · rw [if_pos hex] at hu
          have hfs1 : fs' = { fs with files := fs.files.filter (fun e => e.1 != full) } := by
            simpa using hu.symm
          subst hfs1
          have hd' : full ∉ fs.dirs := by simpa using hd
          constructor
          · unfold readFileFromStorage
            rw [hf]
            unfold readFileFS
            simp [hd', lookup_filter_bne]
          · unfold fileExists
            rw [hf]
            unfold statFS
            simp [hd', lookup_filter_bne]
        · rw [if_neg hex] at hu; exact absurd hu (by simp)

/-- A prefix stays a prefix after extending the larger list. -/
theorem hasPrefixL_append_right (t a b : List Char) (h : hasPrefixL t a = true) :
    hasPrefixL t (a ++ b) = true := by
  induction t generalizing a with
  | nil => rfl
  | cons x ts ih =>
    cases a with
    | nil => exact absurd h (by simp [hasPrefixL])
    | cons c cs =>
      simp only [hasPrefixL, Bool.and_eq_true, decide_eq_true_eq] at h ⊢
      exact ⟨h.1, ih cs h.2⟩

/-- A list begins every list it is appended in front of. -/
theorem hasPrefixL_self_append (t b : List Char) : hasPrefixL t (t ++ b) = true := by
  induction t with
  | nil => rfl
  | cons x ts ih => simpa [hasPrefixL] using ih

/-- A prefix occurrence is an occurrence. -/
theorem hasInfixL_of_hasPrefixL (t l : List Char) (h : hasPrefixL t l = true) :
    hasInfixL t l = true := by
  cases l with
  | nil => exact h
  | cons c cs => simp [hasInfixL, h]

/-- An occurrence survives appending on the right. -/
theorem hasInfixL_append_right (t a b : List Char) (h : hasInfixL t a = true) :
    hasInfixL t (a ++ b) = true := by
  induction a with
  | nil =>
    cases t with
    | nil => exact hasInfixL_of_hasPrefixL _ _ rfl
    | cons x ts => exact absurd h (by simp [hasInfixL, hasPrefixL])
  | cons c cs ih =>
    simp only [hasInfixL, Bool.or_eq_true] at h
    rcases h with h | h
    · exact hasInfixL_of_hasPrefixL _ _ (by simpa using hasPrefixL_append_right t _ b h)
    · simpa [hasInfixL] using Or.inr (ih h)

/-- An occurrence survives appending on the left. -/
theorem hasInfixL_append_left (t a b : List Char) (h : hasInfixL t b = true) :
    hasInfixL t (a ++ b) = true := by
  induction a with
  | nil => simpa using h
  | cons c cs ih => simpa [hasInfixL] using Or.inr ih

/-- Every kept segment occurs in the joined path. -/
theorem hasInfixL_joinSegsC_of_mem (x : List Char) :
    ∀ R : List (List Char), x ∈ R → hasInfixL x (joinSegsC R) = true := by
  intro R
  induction R with
  | nil => intro h; exact absurd h (by simp)
  | cons s rest ih =>
    intro hmem
    rcases List.mem_cons.mp hmem with hx | hx
    · subst hx
      cases rest with
      | nil => exact hasInfixL_of_hasPrefixL _ _ (by simpa using hasPrefixL_self_append x [])
      | cons s2 r2 =>
        exact hasInfixL_of_hasPrefixL _ _
          (by simpa [joinSegsC] using hasPrefixL_self_append x ('/' :: joinSegsC (s2 :: r2)))
    · cases rest with
      | nil => exact absurd hx (by simp)
      | cons s2 r2 =>
        simpa [joinSegsC] using hasInfixL_append_left x (s ++ ['/']) _ (ih hx)

/-- Splitting and re-joining on `/` reconstructs the path. -/
theorem joinSegsC_splitSeg (cs : List Char) : joinSegsC (splitSeg cs) = cs := by
  induction cs with
  | nil => rfl
  | cons c rest ih =>
    cases hs : splitSeg rest with
    | nil => exact absurd hs (by
        cases rest with
        | nil => simp [splitSeg]
        | cons d t =>
          simp only [splitSeg]
          cases splitSeg t with
          | nil => simp
          | cons s ss => by_cases hd : d = '/' <;> simp [hd])
    | cons s ss =>
      by_cases hc : c = '/'
      · subst hc
        rw [hs] at ih
        simp only [splitSeg, hs, if_pos rfl]
        cases ss with
        | nil => simpa [joinSegsC] using ih
        | cons s2 t2 => simpa [joinSegsC] using ih
      · rw [hs] at ih
        simp only [splitSeg, hs, if_neg hc]
        cases ss with
        | nil => simpa [joinSegsC] using ih
        | cons s2 t2 => simpa [joinSegsC] using ih

/-- Propagation of a validation failure through `getFullPath`. -/
theorem getFullPath_error (env : Env) (p : String) (e : StorageError)
    (hv : validatePath p = .error e) : getFullPath env p = .error e := by
  unfold getFullPath
  rw [hv]

/-- All storage and service operations propagate a validation failure
without touching the filesystem state. -/
theorem ops_error_of_validate (p : String) (e : StorageError)
    (hv : validatePath p = .error e) (env : Env) (fs : FSState)
    (data : List Nat) (now : Int) :
    saveFile env fs p data = .error e ∧
    readFileFromStorage env fs p = .error e ∧
    deleteFile env fs p = .error e ∧
    fileExists env fs p = .error e ∧
    uploadImage env fs p data now = .error e ∧
    getImage env fs p = .error e ∧
    deleteImage env fs p = .error e := by
  have hg := getFullPath_error env p e hv
  refine ⟨?_, ?_, ?_, ?_, ?_, ?_, ?_⟩
  · unfold saveFile; rw [hg]
  · unfold readFileFromStorage; rw [hg]
  · unfold deleteFile; rw [hg]
  · unfold fileExists; rw [hg]
  · unfold uploadImage saveFile; rw [hg]
  · unfold getImage readFileFromStorage; rw [hg]
  · unfold deleteImage deleteFile; rw [hg]

/-- C1: any path whose normalized form has a `..` segment or begins with the
separator is rejected by `validatePath`, and therefore by every
filesystem-touching operation and by the service operations built on them,
before any filesystem access. -/
theorem traversal_paths_rejected (p : String)
    (h : dd ∈ splitSeg (normalizeL p.toList) ∨ isAbsL (normalizeL p.toList) = true) :
    validatePath p = .error ⟨"不正なパスが指定されました"⟩ ∧
    ∀ env fs data now,
      saveFile env fs p data = .error ⟨"不正なパスが指定されました"⟩ ∧
      readFileFromStorage env fs p = .error ⟨"不正なパスが指定されました"⟩ ∧
      deleteFile env fs p = .error ⟨"不正なパスが指定されました"⟩ ∧
      fileExists env fs p = .error ⟨"不正なパスが指定されました"⟩ ∧
      uploadImage env fs p data now = .error ⟨"不正なパスが指定されました"⟩ ∧
      getImage env fs p = .error ⟨"不正なパスが指定されました"⟩ ∧
      deleteImage env fs p = .error ⟨"不正なパスが指定されました"⟩ := by
  have hcond : (hasInfixL dd (normalizeL p.toList) || isAbsL (normalizeL p.toList)) = true := by
    rcases h with h | h
    · have hin := hasInfixL_joinSegsC_of_mem dd _ h
      rw [joinSegsC_splitSeg] at hin
      rw [hin]; rfl
    · rw [h]; exact Bool.or_true _
  have hv : validatePath p = .error ⟨"不正なパスが指定されました"⟩ := by
    unfold validatePath
    rw [hcond]; rfl
  exact ⟨hv, fun env fs data now => ops_error_of_validate p _ hv env fs data now⟩

/-- Witness for C1 at the concrete traversal path `../secret`. -/
theorem traversal_paths_rejected_witness :
    (dd ∈ splitSeg (normalizeL (String.toList "../secret")) ∨
        isAbsL (normalizeL (String.toList "../secret")) = true) ∧
      validatePath "../secret" = .error ⟨"不正なパスが指定されました"⟩ ∧
      saveFile testEnv fs0 "../secret" [7] = .error ⟨"不正なパスが指定されました"⟩ ∧
      readFileFromStorage testEnv fs0 "../secret" = .error ⟨"不正なパスが指定されました"⟩ ∧
      deleteFile testEnv fs0 "../secret" = .error ⟨"不正なパスが指定されました"⟩ ∧
      fileExists testEnv fs0 "../secret" = .error ⟨"不正なパスが指定されました"⟩ :=
  have hc := traversal_paths_rejected "../secret" (by decide)
  have ho := hc.2 testEnv fs0 [7] 0
  ⟨by decide, hc.1, ho.1, ho.2.1, ho.2.2.1, ho.2.2.2.1⟩

/-- C9: the validator is strict — `..` occurring anywhere as a substring of
the normalized path (even inside one filename) is rejected, so such paths
never reach the filesystem operations. -/
theorem validator_rejects_dotdot_substring (p : String)
    (h : hasInfixL dd (normalizeL p.toList) = true) :
    validatePath p = .error ⟨"不正なパスが指定されました"⟩ ∧
    ∀ env fs data now,
      saveFile env fs p data = .error ⟨"不正なパスが指定されました"⟩ ∧
      readFileFromStorage env fs p = .error ⟨"不正なパスが指定されました"⟩ ∧
      deleteFile env fs p = .error ⟨"不正なパスが指定されました"⟩ ∧
      fileExists env fs p = .error ⟨"不正なパスが指定されました"⟩ ∧
      uploadImage env fs p data now = .error ⟨"不正なパスが指定されました"⟩ ∧
      getImage env fs p = .error ⟨"不正なパスが指定されました"⟩ ∧
      deleteImage env fs p = .error ⟨"不正なパスが指定されました"⟩ := by
  have hv : validatePath p = .error ⟨"不正なパスが指定されました"⟩ := by
    unfold validatePath
    rw [h]; rfl
  exact ⟨hv, fun env fs data now => ops_error_of_validate p _ hv env fs data now⟩

/-- Witness for C9 at `report..v2.png`: the `..` sits inside a single
filename, the path cannot escape the root, yet it is rejected. -/
theorem validator_rejects_dotdot_substring_witness :
    hasInfixL dd (normalizeL (String.toList "report..v2.png")) = true ∧
      validatePath "report..v2.png" = .error ⟨"不正なパスが指定されました"⟩ ∧
      readFileFromStorage testEnv fsA "report..v2.png" =
        .error ⟨"不正なパスが指定されました"⟩ :=
  have hc := validator_rejects_dotdot_substring "report..v2.png" (by decide)
  ⟨by decide, hc.1, (hc.2 testEnv fsA [] 0).2.1⟩

/-- C8 counterexample: a dot-free filename equal to a known extension is not
mapped to `application/octet-stream` — `split(".").pop()` returns the whole
name, which hits the table. -/
theorem getMimeType_dotless_counterexample :
    getMimeType "png" = "image/png" ∧ getMimeType "png" ≠ "application/octet-stream" :=
  ⟨rfl, by decide⟩

/-- C8 (amended): the looked-up key is the last `.`-separated component of
the lowercased filename (for a dot-free filename, the whole name); known
keys map through the fixed table and any other key yields
`application/octet-stream`; the function is total. -/
theorem getMimeType_table (f ext : String) (h : extKey f = ext) :
    ((ext = "jpg" ∨ ext = "jpeg") → getMimeType f = "image/jpeg") ∧
    (ext = "png" → getMimeType f = "image/png") ∧
    (ext = "gif" → getMimeType f = "image/gif") ∧
    (ext = "webp" → getMimeType f = "image/webp") ∧
    (ext = "svg" → getMimeType f = "image/svg+xml") ∧
    (ext = "bmp" → getMimeType f = "image/bmp") ∧
    (ext = "ico" → getMimeType f = "image/x-icon") ∧
    ((ext ≠ "jpg" ∧ ext ≠ "jpeg" ∧ ext ≠ "png" ∧ ext ≠ "gif" ∧ ext ≠ "webp" ∧
        ext ≠ "svg" ∧ ext ≠ "bmp" ∧ ext ≠ "ico") →
      getMimeType f = "application/octet-stream") := by
  have hg : getMimeType f = (mimeTypes.lookup ext).getD "application/octet-stream" := by
    unfold getMimeType
    rw [h]
  have b1 : ∀ k : String, ext ≠ k → (ext == k) = false := fun k hk => beq_eq_false_iff_ne.mpr hk
  refine ⟨?_, ?_, ?_, ?_, ?_, ?_, ?_, ?_⟩
  · rintro (he | he) <;> (subst he; rw [hg]; rfl)
  · intro he; subst he; rw [hg]; rfl
  · intro he; subst he; rw [hg]; rfl
  · intro he; subst he; rw [hg]; rfl
  · intro he; subst he; rw [hg]; rfl
  · intro he; subst he; rw [hg]; rfl
  · intro he; subst he; rw [hg]; rfl
  · rintro ⟨h1, h2, h3, h4, h5, h6, h7, h8⟩
    rw [hg]
    simp [mimeTypes, List.lookup, b1 _ h1, b1 _ h2, b1 _ h3, b1 _ h4, b1 _ h5,
      b1 _ h6, b1 _ h7, b1 _ h8]

/-- Witness for C8 at `photo.JPG`. -/
theorem getMimeType_table_witness :
    extKey "photo.JPG" = "jpg" ∧ getMimeType "photo.JPG" = "image/jpeg" :=
  ⟨rfl, (getMimeType_table "photo.JPG" "jpg" rfl).1 (Or.inl rfl)⟩

/-- Witness for C7 at a concrete input. -/
theorem deleteFile_then_read_fails_witness :
    deleteFile testEnv fsA "a/b.png" = .ok { fsA with files := [] } ∧
      ((∃ e, readFileFromStorage testEnv { fsA with files := [] } "a/b.png" = .error e) ∧
        fileExists testEnv { fsA with files := [] } "a/b.png" = .ok false) :=
  ⟨rfl, deleteFile_then_read_fails_and_not_exists testEnv fsA "a/b.png" _ rfl⟩

/-- The comparator order, unfolded: `a` may precede `b` exactly when `a`
was modified strictly later, or at the same instant with `a.path` at least
`b.path`. -/
theorem fileLe_iff (a b : FileInfo) :
    fileLe a b = true ↔
      b.updatedAt < a.updatedAt ∨ (b.updatedAt = a.updatedAt ∧ b.path ≤ a.path) := by
  simp only [fileLe, decide_eq_true_eq]
  unfold fileCmp
  by_cases ht : b.updatedAt - a.updatedAt ≠ 0
  · rw [if_pos ht]
    constructor
    · intro h; exact Or.inl (by omega)
    · rintro (h | ⟨h1, _⟩) <;> omega
  · rw [if_neg ht]
    push_neg at ht
    unfold strCmpInt
    rcases lt_trichotomy b.path a.path with hp | hp | hp
    · rw [if_pos hp]
      constructor
      · intro _; exact Or.inr ⟨by omega, le_of_lt hp⟩
      · intro _; norm_num
    · rw [if_neg (by rw [hp]; exact lt_irrefl _), if_neg (by rw [hp]; exact lt_irrefl _)]
      constructor
      · intro _; exact Or.inr ⟨by omega, le_of_eq hp⟩
      · intro _; exact le_refl 0
    · rw [if_neg (not_lt.mpr (le_of_lt hp)), if_pos hp]
      constructor
      · intro h; norm_num at h
      · rintro (h | ⟨h1, h2⟩)
        · omega
        · exact absurd h2 (not_le.mpr hp)

/-- The comparator is total. -/
theorem fileLe_total (a b : FileInfo) : (fileLe a b || fileLe b a) = true := by
  rcases lt_trichotomy a.updatedAt b.updatedAt with h | h | h
  · rw [(fileLe_iff b a).mpr (Or.inl h)]; exact Bool.or_true _
  · rcases le_total a.path b.path with hp | hp
    · rw [(fileLe_iff b a).mpr (Or.inr ⟨h, hp⟩)]; exact Bool.or_true _
    · rw [(fileLe_iff a b).mpr (Or.inr ⟨h.symm, hp⟩)]; rfl
  · rw [(fileLe_iff a b).mpr (Or.inl h)]; rfl

/-- The comparator is transitive. -/
theorem fileLe_trans (a b c : FileInfo) (h1 : fileLe a b = true)
    (h2 : fileLe b c = true) : fileLe a c = true := by
  rw [fileLe_iff] at h1 h2 ⊢
  rcases h1 with h1 | ⟨h1, h1p⟩ <;> rcases h2 with h2 | ⟨h2, h2p⟩
  · exact Or.inl (lt_trans h2 h1)
  · exact Or.inl (by omega)
  · exact Or.inl (by omega)
  · exact Or.inr ⟨by omega, le_trans h2p h1p⟩

/-- C5: for every storage state the sequence returned by `listAllFiles` is
sorted by modification time descending, ties broken by path descending —
a fully deterministic order. -/
theorem listAllFiles_sorted (env : Env) (fs : FSState) (fuel : Nat) :
    List.Pairwise
      (fun a b => b.updatedAt < a.updatedAt ∨
        (b.updatedAt = a.updatedAt ∧ b.path ≤ a.path))
      (listAllFiles env fs fuel) := by
  unfold listAllFiles sortFiles
  exact
    (List.sorted_mergeSort (fun x y z => fileLe_trans x y z) fileLe_total
      (walkFS fs env.imageStoragePath fuel env.imageStoragePath)).imp
      (fun {x y} hxy => (fileLe_iff x y).mp hxy)

/-- `ceilDivJ` is exactly the ceiling of the division: an upper bound that
is least among the upper bounds. -/
theorem ceilDivJ_spec (t l : Nat) (hl : 1 ≤ l) :
    t ≤ ceilDivJ t l * l ∧ ∀ m : Nat, t ≤ m * l → ceilDivJ t l ≤ m := by
  constructor
  · have hqr := Nat.div_add_mod (t + l - 1) l
    unfold ceilDivJ
    rw [mul_comm]
    generalize l * ((t + l - 1) / l) = x at hqr ⊢
    have hr : (t + l - 1) % l < l := Nat.mod_lt _ hl
    omega
  · intro m hm
    unfold ceilDivJ
    rw [Nat.div_le_iff_le_mul_add_pred hl]
    rw [mul_comm] at hm
    generalize l * m = x at hm ⊢
    omega

/-- An empty file table makes the recursive walk empty. -/
theorem walkFS_nil (fs : FSState) (root : String) (hf : fs.files = []) :
    ∀ (fuel : Nat) (dir : String), walkFS fs root fuel dir = [] := by
  intro fuel
  induction fuel with
  | zero => intro dir; rfl
  | succ n ih =>
    intro dir
    unfold walkFS
    have hents : readdirFS fs dir
        = fs.dirs.filterMap (fun s => (immediateName dir s).map ((·, true))) := by
      unfold readdirFS
      rw [hf]
      rfl
    rw [hents]
    generalize fs.dirs.filterMap (fun s => (immediateName dir s).map ((·, true))) = ents
    induction ents with
    | nil => rfl
    | cons e t iht =>
      rw [List.flatMap_cons, iht]
      rcases e with ⟨name, isDir⟩
      cases isDir
      · simp [hf, List.lookup]
      · simp [ih]

/-- C6: `getImages` reports `total` as the number of stored files, echoes
`page` and `limit`, computes `totalPages = ceil(total/limit)` (the least
upper page count), and returns exactly the slice
`[(page-1)*limit, (page-1)*limit + limit)` of the sorted listing; a page
beyond the data yields an empty list, and an empty store yields an empty
page with `total = 0` and `totalPages = 0`. -/
theorem getImages_pagination (env : Env) (fs : FSState) (fuel : Nat)
    (page limit : Nat) (hp : 1 ≤ page) (hl : 1 ≤ limit) :
    (getImages page limit env fs fuel).pagination.total
        = (listAllFiles env fs fuel).length ∧
    (getImages page limit env fs fuel).pagination.page = page ∧
    (getImages page limit env fs fuel).pagination.limit = limit ∧
    (getImages page limit env fs fuel).pagination.total
        ≤ (getImages page limit env fs fuel).pagination.totalPages * limit ∧
    (∀ m : Nat, (getImages page limit env fs fuel).pagination.total ≤ m * limit →
      (getImages page limit env fs fuel).pagination.totalPages ≤ m) ∧
    (getImages page limit env fs fuel).images
        = (((listAllFiles env fs fuel).drop ((page - 1) * limit)).take limit).map
            imageOfFile ∧
    ((listAllFiles env fs fuel).length ≤ (page - 1) * limit →
      (getImages page limit env fs fuel).images = []) ∧
    (fs.files = [] →
      (getImages page limit env fs fuel).images = [] ∧
      (getImages page limit env fs fuel).pagination.total = 0 ∧
      (getImages page limit env fs fuel).pagination.totalPages = 0) := by
  refine ⟨rfl, rfl, rfl, ?_, ?_, rfl, ?_, ?_⟩
  · exact (ceilDivJ_spec _ limit hl).1
  · exact fun m hm => (ceilDivJ_spec _ limit hl).2 m hm
  · intro hbeyond
    show (((listAllFiles env fs fuel).drop ((page - 1) * limit)).take limit).map
        imageOfFile = []
    rw [List.drop_eq_nil_of_le hbeyond]
    simp
  · intro hf
    have hwalk : listAllFiles env fs fuel = [] := by
      unfold listAllFiles sortFiles
      rw [walkFS_nil fs env.imageStoragePath hf fuel env.imageStoragePath]
      simp
    refine ⟨?_, ?_, ?_⟩
    · show (((listAllFiles env fs fuel).drop ((page - 1) * limit)).take limit).map
          imageOfFile = []
      rw [hwalk]
      simp
    · show (listAllFiles env fs fuel).length = 0
      rw [hwalk]
      rfl
    · show ceilDivJ (listAllFiles env fs fuel).length limit = 0
      rw [hwalk]
      show (0 + limit - 1) / limit = 0
      exact Nat.div_eq_of_lt (by omega)

/-- Witness for C6 on a two-file store with `page = 2`, `limit = 1`. -/
theorem getImages_pagination_witness :
    1 ≤ 2 ∧ 1 ≤ 1 ∧
      (getImages 2 1 testEnv fsB 5).pagination.total
        = (listAllFiles testEnv fsB 5).length ∧
      (getImages 2 1 testEnv fsB 5).images
        = (((listAllFiles testEnv fsB 5).drop 1).take 1).map imageOfFile :=
  have hc := getImages_pagination testEnv fsB 5 2 1 (by omega) (by omega)
  ⟨by omega, by omega, hc.1, hc.2.2.2.2.2.1⟩

/-- A verified prefix can be cut off and glued back. -/
theorem hasPrefixL_append_drop :
    ∀ p l : List Char, hasPrefixL p l = true → p ++ l.drop p.length = l := by
  intro p
  induction p with
  | nil => intro l _; simp
  | cons x ps ih =>
    intro l h
    cases l with
    | nil => exact absurd h (by simp [hasPrefixL])
    | cons c cs =>
      simp only [hasPrefixL, Bool.and_eq_true, decide_eq_true_eq] at h
      rcases h with ⟨hx, hrest⟩
      subst hx
      simp only [List.length_cons, List.drop_succ_cons, List.cons_append]
      rw [ih cs hrest]

/-- Splitting a string append into character lists. -/
theorem toList_append_slash (a b : String) :
    (a ++ "/" ++ b).toList = (a.toList ++ ['/']) ++ b.toList := by
  show ((a ++ "/") ++ b).data = (a.data ++ ['/']) ++ b.data
  rw [String.data_append, String.data_append]

/-- Every record emitted by the recursive walk below the storage root
denotes an existing regular file: re-joining its relative `path` onto the
root reconstructs a path present in the file table. -/
theorem walkFS_mem_isFile (fs : FSState) (root : String) :
    ∀ (fuel : Nat) (dir : String),
      (dir = root ∨ hasPrefixL (root.toList ++ ['/']) dir.toList = true) →
      ∀ info ∈ walkFS fs root fuel dir,
        isFileFS fs (root ++ "/" ++ info.path) = true := by
  intro fuel
  induction fuel with
  | zero => intro dir _ info hinfo; exact absurd hinfo (by simp [walkFS])
  | succ n ih =>
    intro dir hdir info hinfo
    unfold walkFS at hinfo
    rcases List.mem_flatMap.mp hinfo with ⟨e, _hmem, hin⟩
    have hfullpre :
        hasPrefixL (root.toList ++ ['/']) ((dir ++ "/" ++ e.1).toList) = true := by
      rw [toList_append_slash]
      rcases hdir with hdir | hdir
      · subst hdir
        exact hasPrefixL_self_append _ _
      · rw [List.append_assoc]
        exact hasPrefixL_append_right _ _ _ hdir
    by_cases he : e.2 = true
    · rw [if_pos he] at hin
      exact ih (dir ++ "/" ++ e.1) (Or.inr hfullpre) info hin
    · rw [if_neg he] at hin
      cases hl : fs.files.lookup (dir ++ "/" ++ e.1) with
      | none => rw [hl] at hin; exact absurd hin (by simp)
      | some d =>
        rw [hl] at hin
        have hinfo_eq : info =
            { path := relativeUnder root (dir ++ "/" ++ e.1), filename := e.1,
              size := d.length, uploadedAt := fs.birth (dir ++ "/" ++ e.1),
              updatedAt := fs.mtime (dir ++ "/" ++ e.1) } := by
          simpa using hin
        have hpath : root ++ "/" ++ info.path = dir ++ "/" ++ e.1 := by
          rw [hinfo_eq]
          show root ++ "/" ++ relativeUnder root (dir ++ "/" ++ e.1) = dir ++ "/" ++ e.1
          unfold relativeUnder
          rw [if_pos hfullpre]
          apply String.ext
          have hcut := hasPrefixL_append_drop (root.toList ++ ['/'])
            ((dir ++ "/" ++ e.1).toList) hfullpre
          have hlen : (root.toList ++ ['/']).length = root.toList.length + 1 := by simp
          rw [hlen] at hcut
          calc (root ++ "/" ++
                (((dir ++ "/" ++ e.1).toList.drop (root.toList.length + 1)).asString)).data
              = (root.toList ++ ['/']) ++
                ((dir ++ "/" ++ e.1).toList.drop (root.toList.length + 1)) := by
                rw [show (root ++ "/" ++
                    (((dir ++ "/" ++ e.1).toList.drop (root.toList.length + 1)).asString)).data
                    = (root ++ "/" ++
                    (((dir ++ "/" ++ e.1).toList.drop (root.toList.length + 1)).asString)).toList
                  from rfl, toList_append_slash]
                rfl
            _ = (dir ++ "/" ++ e.1).toList := hcut
            _ = (dir ++ "/" ++ e.1).data := rfl
        rw [hpath]
        unfold isFileFS
        rw [hl]
        rfl

/-- C10: when a validated path resolves to an existing directory (not a
regular file), `fileExists` reports `true`, `readFileFromStorage` fails,
the listing never reports a stored file reconstructing that absolute path,
and on a validated path `fileExists` never throws — its answer is exactly
whether `stat` succeeds, so every stat failure maps to `false`. -/
theorem fileExists_on_directory (env : Env) (fs : FSState) (p full : String)
    (hfull : getFullPath env p = .ok full)
    (hdir : fs.dirs.contains full = true)
    (hnofile : fs.files.lookup full = none) :
    fileExists env fs p = .ok true ∧
    (∃ e, readFileFromStorage env fs p = .error e) ∧
    (∀ fuel info, info ∈ listAllFiles env fs fuel →
        env.imageStoragePath ++ "/" ++ info.path ≠ full) ∧
    (∀ fs2 : FSState, fileExists env fs2 p = .ok (statFS fs2 full).isSome) := by
  refine ⟨?_, ?_, ?_, ?_⟩
  · unfold fileExists
    rw [hfull]
    dsimp only
    unfold statFS
    rw [hnofile]
    dsimp only
    rw [hdir]
    rfl
  · unfold readFileFromStorage
    rw [hfull]
    dsimp only
    unfold readFileFS
    rw [hdir]
    exact ⟨_, rfl⟩
  · intro fuel info hinfo heq
    unfold listAllFiles sortFiles at hinfo
    have hmem := List.mem_mergeSort.mp hinfo
    have hfile := walkFS_mem_isFile fs env.imageStoragePath fuel
      env.imageStoragePath (Or.inl rfl) info hmem
    rw [heq] at hfile
    unfold isFileFS at hfile
    rw [hnofile] at hfile
    exact absurd hfile (by simp)
  · intro fs2
    unfold fileExists
    rw [hfull]

/-- Witness for C10: `a` names the directory `/srv/uploads/a` holding
`b.png`. -/
theorem fileExists_on_directory_witness :
    getFullPath testEnv "a" = .ok "/srv/uploads/a" ∧
    fsA.dirs.contains "/srv/uploads/a" = true ∧
    fsA.files.lookup "/srv/uploads/a" = none ∧
    fileExists testEnv fsA "a" = .ok true :=
  ⟨rfl, rfl, rfl,
    (fileExists_on_directory testEnv fsA "a" "/srv/uploads/a" rfl rfl rfl).1⟩

/-- `splitSeg` never returns the empty list of segments. -/
theorem splitSeg_ne_nil (cs : List Char) : splitSeg cs ≠ [] := by
  cases cs with
  | nil => simp [splitSeg]
  | cons c rest =>
    simp only [splitSeg]
    cases splitSeg rest with
    | nil => simp
    | cons s ss => by_cases hc : c = '/' <;> simp [hc]

/-- A leading separator contributes one empty segment. -/
theorem splitSeg_cons_slash (y : List Char) : splitSeg ('/' :: y) = [] :: splitSeg y := by
  simp only [splitSeg]
  cases hs : splitSeg y with
  | nil => exact absurd hs (splitSeg_ne_nil y)
  | cons s ss => simp

/-- A leading non-separator extends the first segment. -/
theorem splitSeg_cons_ne (c : Char) (y : List Char) (hc : c ≠ '/') :
    splitSeg (c :: y) = (c :: (splitSeg y).headI) :: (splitSeg y).tail := by
  simp only [splitSeg]
  cases hs : splitSeg y with
  | nil => exact absurd hs (splitSeg_ne_nil y)
  | cons s ss => simp [hc]

/-- Splitting distributes over an explicit separator. -/
theorem splitSeg_append (a b : List Char) :
    splitSeg (a ++ '/' :: b) = splitSeg a ++ splitSeg b := by
  induction a with
  | nil => simpa using splitSeg_cons_slash b
  | cons c rest ih =>
    by_cases hc : c = '/'
    · subst hc
      rw [List.cons_append, splitSeg_cons_slash, splitSeg_cons_slash, ih]
      rfl
    · rw [List.cons_append, splitSeg_cons_ne c _ hc, splitSeg_cons_ne c _ hc, ih]
      cases hs : splitSeg rest with
      | nil => exact absurd hs (splitSeg_ne_nil rest)
      | cons s ss => simp

/-- Segments contain no separators. -/
theorem splitSeg_no_slash (cs : List Char) : ∀ x ∈ splitSeg cs, '/' ∉ x := by
  induction cs with
  | nil => intro x hx; simp [splitSeg] at hx; simp [hx]
  | cons c rest ih =>
    intro x hx
    by_cases hc : c = '/'
    · subst hc
      rw [splitSeg_cons_slash] at hx
      rcases List.mem_cons.mp hx with hx | hx
      · simp [hx]
      · exact ih x hx
    · rw [splitSeg_cons_ne c _ hc] at hx
      rcases List.mem_cons.mp hx with hx | hx
      · subst hx
        cases hs : splitSeg rest with
        | nil => exact absurd hs (splitSeg_ne_nil rest)
        | cons s ss =>
          intro hmem
          rcases List.mem_cons.mp hmem with h1 | h1
          · exact hc h1.symm
          · exact ih s (by rw [hs]; exact List.mem_cons_self s ss) (by simpa [hs] using h1)
      · exact ih x (by
          cases hs : splitSeg rest with
          | nil => exact absurd hs (splitSeg_ne_nil rest)
          | cons s ss => rw [hs] at hx; exact List.mem_cons_of_mem s hx)

/-- Splitting a separator-free list gives a single segment. -/
theorem splitSeg_single (s : List Char) (hs : '/' ∉ s) : splitSeg s = [s] := by
  induction s with
  | nil => rfl
  | cons c rest ih =>
    have hc : c ≠ '/' := fun h => hs (by rw [h]; exact List.mem_cons_self _ _)
    have hr : '/' ∉ rest := fun h => hs (List.mem_cons_of_mem _ h)
    rw [splitSeg_cons_ne c _ hc, ih hr]
    rfl

/-- Splitting inverts joining for nonempty separator-free segment lists. -/
theorem splitSeg_joinSegsC (R : List (List Char)) (hR : ∀ x ∈ R, '/' ∉ x)
    (hne : R ≠ []) : splitSeg (joinSegsC R) = R := by
  induction R with
  | nil => exact absurd rfl hne
  | cons s rest ih =>
    cases rest with
    | nil => exact splitSeg_single s (hR s (List.mem_cons_self _ _))
    | cons s2 r2 =>
      show splitSeg (s ++ '/' :: joinSegsC (s2 :: r2)) = s :: s2 :: r2
      rw [splitSeg_append, splitSeg_single s (hR s (List.mem_cons_self _ _))]
      rw [ih (fun x hx => hR x (List.mem_cons_of_mem _ hx)) (by simp)]
      rfl

/-- Joining distributes over appending nonempty segment lists. -/
theorem joinSegsC_append (R T : List (List Char)) (hR : R ≠ []) (hT : T ≠ []) :
    joinSegsC (R ++ T) = joinSegsC R ++ '/' :: joinSegsC T := by
  induction R with
  | nil => exact absurd rfl hR
  | cons s rest ih =>
    cases rest with
    | nil =>
      cases T with
      | nil => exact absurd rfl hT
      | cons t ts => rfl
    | cons s2 r2 =>
      have h1 : joinSegsC ((s :: s2 :: r2) ++ T) = s ++ '/' :: joinSegsC ((s2 :: r2) ++ T) := rfl
      rw [h1, ih (by simp)]
      simp [joinSegsC]

/-- A nonempty segment list with nonempty head joins to a nonempty path. -/
theorem joinSegsC_ne_nil (R : List (List Char)) (hne : R ≠ [])
    (hall : ∀ x ∈ R, x ≠ []) : joinSegsC R ≠ [] := by
  cases R with
  | nil => exact absurd rfl hne
  | cons s rest =>
    have hs : s ≠ [] := hall s (List.mem_cons_self _ _)
    cases rest with
    | nil => exact hs
    | cons s2 r2 =>
      show s ++ '/' :: joinSegsC (s2 :: r2) ≠ []
      simp [hs]

/-- Skipped segments leave the stack unchanged. -/
theorem stepSeg_nil_seg (b : Bool) (acc : List (List Char)) : stepSeg b acc [] = acc := rfl

/-- A pushed element of a `stepSeg false` step comes from the segment. -/
theorem stepSegF_mem (acc : List (List Char)) (seg x : List Char)
    (hx : x ∈ stepSeg false acc seg) :
    x ∈ acc ∨ (x = seg ∧ seg ≠ [] ∧ seg ≠ ['.'] ∧ seg ≠ dd) := by
  unfold stepSeg at hx
  by_cases h1 : seg = [] ∨ seg = ['.']
  · rw [if_pos h1] at hx; exact Or.inl hx
  · rw [if_neg h1] at hx
    by_cases h2 : seg = dd
    · rw [if_pos h2] at hx
      cases acc with
      | nil => exact absurd hx (List.not_mem_nil x)
      | cons t rest =>
        dsimp only at hx
        by_cases h3 : t = dd
        · rw [if_pos h3] at hx
          exact Or.inl hx
        · rw [if_neg h3] at hx
          exact Or.inl (List.mem_cons_of_mem t hx)
    · rw [if_neg h2] at hx
      rcases List.mem_cons.mp hx with hx | hx
      · exact Or.inr ⟨hx, fun h => h1 (Or.inl h), fun h => h1 (Or.inr h), h2⟩
      · exact Or.inl hx

/-- Elements of the `allowAboveRoot = false` stack come from the input. -/
theorem foldl_stepSegF_mem :
    ∀ (segs : List (List Char)) (acc : List (List Char)) (x : List Char),
      x ∈ List.foldl (stepSeg false) acc segs →
      x ∈ acc ∨ (x ∈ segs ∧ x ≠ [] ∧ x ≠ ['.'] ∧ x ≠ dd) := by
  intro segs
  induction segs with
  | nil => intro acc x hx; exact Or.inl hx
  | cons s rest ih =>
    intro acc x hx
    rcases ih (stepSeg false acc s) x hx with hx1 | ⟨hmem, hne⟩
    · rcases stepSegF_mem acc s x hx1 with hx2 | ⟨hxs, hs⟩
      · exact Or.inl hx2
      · subst hxs
        exact Or.inr ⟨List.mem_cons_self _ _, hs⟩
    · exact Or.inr ⟨List.mem_cons_of_mem s hmem, hne⟩

/-- A pushed element of a `stepSeg true` step is `..` or comes from the
segment. -/
theorem stepSegT_mem (acc : List (List Char)) (seg x : List Char)
    (hx : x ∈ stepSeg true acc seg) :
    x ∈ acc ∨ x = dd ∨ (x = seg ∧ seg ≠ [] ∧ seg ≠ ['.'] ∧ seg ≠ dd) := by
  unfold stepSeg at hx
  by_cases h1 : seg = [] ∨ seg = ['.']
  · rw [if_pos h1] at hx; exact Or.inl hx
  · rw [if_neg h1] at hx
    by_cases h2 : seg = dd
    · rw [if_pos h2] at hx
      cases acc with
      | nil =>
        exact Or.inr (Or.inl (List.mem_singleton.mp hx))
      | cons t rest =>
        dsimp only at hx
        by_cases h3 : t = dd
        · rw [if_pos h3] at hx
          rcases List.mem_cons.mp hx with hx | hx
          · exact Or.inr (Or.inl hx)
          · exact Or.inl hx
        · rw [if_neg h3] at hx
          exact Or.inl (List.mem_cons_of_mem t hx)
    · rw [if_neg h2] at hx
      rcases List.mem_cons.mp hx with hx | hx
      · exact Or.inr (Or.inr ⟨hx, fun h => h1 (Or.inl h), fun h => h1 (Or.inr h), h2⟩)
      · exact Or.inl hx

/-- Elements of the `allowAboveRoot = true` stack are `..` or come from the
input. -/
theorem foldl_stepSegT_mem :
    ∀ (segs : List (List Char)) (acc : List (List Char)) (x : List Char),
      x ∈ List.foldl (stepSeg true) acc segs →
      x ∈ acc ∨ x = dd ∨ (x ∈ segs ∧ x ≠ [] ∧ x ≠ ['.'] ∧ x ≠ dd) := by
  intro segs
  induction segs with
  | nil => intro acc x hx; exact Or.inl hx
  | cons s rest ih =>
    intro acc x hx
    rcases ih (stepSeg true acc s) x hx with hx1 | hx1 | ⟨hmem, hne⟩
    · rcases stepSegT_mem acc s x hx1 with hx2 | hx2 | ⟨hxs, hs⟩
      · exact Or.inl hx2
      · exact Or.inr (Or.inl hx2)
      · subst hxs
        exact Or.inr (Or.inr ⟨List.mem_cons_self _ _, hs⟩)
    · exact Or.inr (Or.inl hx1)
    · exact Or.inr (Or.inr ⟨List.mem_cons_of_mem s hmem, hne⟩)

/-- Once on the stack, `..` survives every `stepSeg true` step. -/
theorem dd_stepSegT (acc : List (List Char)) (seg : List Char) (h : dd ∈ acc) :
    dd ∈ stepSeg true acc seg := by
  unfold stepSeg
  by_cases h1 : seg = [] ∨ seg = ['.']
  · rw [if_pos h1]; exact h
  · rw [if_neg h1]
    by_cases h2 : seg = dd
    · rw [if_pos h2]
      cases acc with
      | nil => exact absurd h (List.not_mem_nil dd)
      | cons t rest =>
        dsimp only
        by_cases h3 : t = dd
        · rw [if_pos h3]
          exact List.mem_cons_self _ _
        · rw [if_neg h3]
          rcases List.mem_cons.mp h with h | h
          · exact absurd h.symm h3
          · exact h
    · rw [if_neg h2]
      exact List.mem_cons_of_mem seg h

/-- `..` persists through the whole fold. -/
theorem dd_foldl_stepSegT :
    ∀ (segs : List (List Char)) (acc : List (List Char)), dd ∈ acc →
      dd ∈ List.foldl (stepSeg true) acc segs := by
  intro segs
  induction segs with
  | nil => intro acc h; exact h
  | cons s rest ih => intro acc h; exact ih _ (dd_stepSegT acc s h)

/-- The key transfer lemma: when the relative fold (`allowAboveRoot`)
keeps no `..`, folding the same segments in absolute mode on top of a
deeper stack never touches that stack — the two folds agree up to the
appended remainder. -/
theorem foldl_transfer :
    ∀ (segs : List (List Char)) (acc S : List (List Char)),
      (∀ x ∈ List.foldl (stepSeg true) acc segs, x ≠ dd) →
      List.foldl (stepSeg false) (acc ++ S) segs
        = List.foldl (stepSeg true) acc segs ++ S := by
  intro segs
  induction segs with
  | nil => intro acc S _; rfl
  | cons s rest ih =>
    intro acc S h
    have hnodd_step : dd ∉ stepSeg true acc s := fun hmem =>
      h dd (dd_foldl_stepSegT rest _ hmem) rfl
    have hnodd_acc : dd ∉ acc := fun hmem => hnodd_step (dd_stepSegT acc s hmem)
    have hstep : stepSeg false (acc ++ S) s = stepSeg true acc s ++ S := by
      unfold stepSeg
      by_cases h1 : s = [] ∨ s = ['.']
      · rw [if_pos h1, if_pos h1]
      · rw [if_neg h1, if_neg h1]
        by_cases h2 : s = dd
        · rw [if_pos h2, if_pos h2]
          cases acc with
          | nil =>
            exfalso
            apply hnodd_step
            unfold stepSeg
            rw [if_neg h1, if_pos h2]
            simp
          | cons t rest' =>
            have h3 : t ≠ dd := fun ht => hnodd_acc (ht ▸ List.mem_cons_self _ _)
            rw [List.cons_append]
            dsimp only
            rw [if_neg h3, if_neg h3]
        · rw [if_neg h2, if_neg h2, List.cons_append]
    rw [List.foldl_cons, List.foldl_cons, hstep]
    exact ih (stepSeg true acc s) S h

/-- Good segments are pushed verbatim, in either mode. -/
theorem foldl_good_push (b : Bool) :
    ∀ (segs : List (List Char)),
      (∀ x ∈ segs, x ≠ [] ∧ x ≠ ['.'] ∧ x ≠ dd) →
      ∀ acc, List.foldl (stepSeg b) acc segs = segs.reverse ++ acc := by
  intro segs
  induction segs with
  | nil => intro _ acc; rfl
  | cons s rest ih =>
    intro hgood acc
    have hs := hgood s (List.mem_cons_self _ _)
    have hstep : stepSeg b acc s = s :: acc := by
      unfold stepSeg
      rw [if_neg (by
        rintro (h | h)
        exacts [hs.1 h, hs.2.1 h]), if_neg hs.2.2]
    rw [List.foldl_cons, hstep, ih (fun x hx => hgood x (List.mem_cons_of_mem s hx)) (s :: acc)]
    simp

/-- A list is a prefix of itself. -/
theorem hasPrefixL_refl (t : List Char) : hasPrefixL t t = true := by
  have h := hasPrefixL_self_append t []
  rwa [List.append_nil] at h

/-- Folding a list of empty segments changes nothing. -/
theorem foldl_empty_segs (b : Bool) :
    ∀ (E : List (List Char)), (∀ x ∈ E, x = []) →
      ∀ acc, List.foldl (stepSeg b) acc E = acc := by
  intro E
  induction E with
  | nil => intro _ acc; rfl
  | cons e t ih =>
    intro h acc
    have he : e = [] := h e (List.mem_cons_self _ _)
    subst he
    rw [List.foldl_cons, stepSeg_nil_seg]
    exact ih (fun x hx => h x (List.mem_cons_of_mem _ hx)) acc

/-- Normalizing an absolute path yields an absolute path. -/
theorem normalizeL_abs (cs : List Char) (h : isAbsL cs = true) :
    isAbsL (normalizeL cs) = true := by
  have hne : cs ≠ [] := by
    intro hcs
    rw [hcs] at h
    exact absurd h (by simp [isAbsL, hasPrefixL])
  unfold normalizeL
  rw [if_neg hne]
  by_cases hcore : joinSegsC (normCore (!isAbsL cs) (splitSeg cs)) = []
  · rw [if_pos hcore, if_pos h]
    rfl
  · rw [if_neg hcore, if_pos h]
    simp [isAbsL, hasPrefixL]

/-- The resolver output for an absolute working directory: a `/` followed
by separator-free good segments. -/
theorem resolveL_shape (cwd p : List Char) (hcwd : isAbsL cwd = true) :
    ∃ R : List (List Char),
      (∀ x ∈ R, x ≠ [] ∧ x ≠ ['.'] ∧ x ≠ dd ∧ '/' ∉ x) ∧
      resolveL cwd p = '/' :: joinSegsC R := by
  have hgood : ∀ (rp : List Char) (x : List Char),
      x ∈ (List.foldl (stepSeg false) [] (splitSeg rp)).reverse →
      x ≠ [] ∧ x ≠ ['.'] ∧ x ≠ dd ∧ '/' ∉ x := by
    intro rp x hx
    rw [List.mem_reverse] at hx
    rcases foldl_stepSegF_mem _ [] x hx with h | ⟨hmem, h1, h2, h3⟩
    · exact absurd h (List.not_mem_nil x)
    · exact ⟨h1, h2, h3, splitSeg_no_slash _ x hmem⟩
  by_cases hp : isAbsL p = true
  · refine ⟨(List.foldl (stepSeg false) [] (splitSeg (p ++ ['/']))).reverse,
      hgood _, ?_⟩
    unfold resolveL
    rw [if_pos hp]
    rfl
  · have hcwd_ne : cwd ≠ [] := by
      intro h
      rw [h] at hcwd
      exact absurd hcwd (by simp [isAbsL, hasPrefixL])
    refine ⟨(List.foldl (stepSeg false)
        [] (splitSeg (cwd ++ '/' :: (if p = [] then [] else p ++ ['/'])))).reverse,
      hgood _, ?_⟩
    unfold resolveL
    rw [if_neg hp, if_neg hcwd_ne, if_pos hcwd]
    rfl

/-- Every element of the relative normalization stack of `pl` is a good,
separator-free segment, provided the stack keeps no `..`. -/
theorem stackT_good (pl : List Char)
    (hnodd : ∀ x ∈ List.foldl (stepSeg true) [] (splitSeg pl), x ≠ dd) :
    ∀ x ∈ (List.foldl (stepSeg true) [] (splitSeg pl)).reverse,
      x ≠ [] ∧ x ≠ ['.'] ∧ x ≠ dd ∧ '/' ∉ x := by
  intro x hx
  rw [List.mem_reverse] at hx
  rcases foldl_stepSegT_mem _ [] x hx with h | h | ⟨hmem, h1, h2, h3⟩
  · exact absurd h (List.not_mem_nil x)
  · exact absurd h (hnodd x hx)
  · exact ⟨h1, h2, h3, splitSeg_no_slash pl x hmem⟩

/-- Normalizing the root alone: the root comes back, possibly with a
trailing separator. -/
theorem normalizeL_root (R : List (List Char))
    (hR : ∀ x ∈ R, x ≠ [] ∧ x ≠ ['.'] ∧ x ≠ dd ∧ '/' ∉ x) (hRne : R ≠ []) :
    ∃ T, (T = [] ∨ T = ['/']) ∧
      normalizeL ('/' :: joinSegsC R) = '/' :: (joinSegsC R ++ T) := by
  have hsplit : splitSeg ('/' :: joinSegsC R) = [] :: R := by
    rw [splitSeg_cons_slash, splitSeg_joinSegsC R (fun x hx => (hR x hx).2.2.2) hRne]
  have habs : isAbsL ('/' :: joinSegsC R) = true := by simp [isAbsL, hasPrefixL]
  have hfold : normCore (!isAbsL ('/' :: joinSegsC R)) (splitSeg ('/' :: joinSegsC R)) = R := by
    rw [habs, hsplit]
    show (List.foldl (stepSeg false) [] ([] :: R)).reverse = R
    rw [List.foldl_cons, stepSeg_nil_seg,
      foldl_good_push false R (fun x hx => ⟨(hR x hx).1, (hR x hx).2.1, (hR x hx).2.2.1⟩) []]
    simp
  have hcore_ne : joinSegsC (normCore (!isAbsL ('/' :: joinSegsC R)) (splitSeg ('/' :: joinSegsC R))) ≠ [] := by
    rw [hfold]
    exact joinSegsC_ne_nil R hRne (fun x hx => (hR x hx).1)
  unfold normalizeL
  rw [if_neg (by simp), if_neg hcore_ne, if_pos habs, hfold]
  by_cases ht : endsSlashL ('/' :: joinSegsC R) = true
  · exact ⟨['/'], Or.inr rfl, by rw [if_pos ht]⟩
  · refine ⟨[], Or.inl rfl, ?_⟩
    rw [if_neg ht, List.append_nil]

/-- Normalizing root-slash-relative: the kept segments of the relative path
are appended below the root, possibly with a trailing separator. -/
theorem normalizeL_root_join (R : List (List Char))
    (hR : ∀ x ∈ R, x ≠ [] ∧ x ≠ ['.'] ∧ x ≠ dd ∧ '/' ∉ x) (hRne : R ≠ [])
    (pl : List Char)
    (hnodd : ∀ x ∈ List.foldl (stepSeg true) [] (splitSeg pl), x ≠ dd) :
    ∃ T, (T = [] ∨ T = ['/']) ∧
      normalizeL (('/' :: joinSegsC R) ++ '/' :: pl)
        = '/' :: (joinSegsC (R ++ (List.foldl (stepSeg true) [] (splitSeg pl)).reverse) ++ T) := by
  have hcs : ('/' :: joinSegsC R) ++ '/' :: pl = '/' :: (joinSegsC R ++ '/' :: pl) := rfl
  have habs : isAbsL (('/' :: joinSegsC R) ++ '/' :: pl) = true := by
    rw [hcs]; simp [isAbsL, hasPrefixL]
  have hsplit : splitSeg (('/' :: joinSegsC R) ++ '/' :: pl)
      = [] :: (R ++ splitSeg pl) := by
    rw [hcs, splitSeg_cons_slash, splitSeg_append,
      splitSeg_joinSegsC R (fun x hx => (hR x hx).2.2.2) hRne]
  have hfold : normCore (!isAbsL (('/' :: joinSegsC R) ++ '/' :: pl))
      (splitSeg (('/' :: joinSegsC R) ++ '/' :: pl))
      = R ++ (List.foldl (stepSeg true) [] (splitSeg pl)).reverse := by
    rw [habs, hsplit]
    show (List.foldl (stepSeg false) [] ([] :: (R ++ splitSeg pl))).reverse = _
    rw [List.foldl_cons, stepSeg_nil_seg, List.foldl_append,
      foldl_good_push false R (fun x hx => ⟨(hR x hx).1, (hR x hx).2.1, (hR x hx).2.2.1⟩) [],
      List.append_nil]
    rw [show R.reverse = [] ++ R.reverse from rfl, foldl_transfer (splitSeg pl) [] R.reverse hnodd]
    rw [List.reverse_append, List.reverse_reverse]
  have hGne : R ++ (List.foldl (stepSeg true) [] (splitSeg pl)).reverse ≠ [] := by
    intro h
    rcases List.append_eq_nil.mp h with ⟨h1, _⟩
    exact hRne h1
  have hGgood : ∀ x ∈ R ++ (List.foldl (stepSeg true) [] (splitSeg pl)).reverse, x ≠ [] := by
    intro x hx
    rcases List.mem_append.mp hx with hx | hx
    · exact (hR x hx).1
    · exact (stackT_good pl hnodd x hx).1
  have hcore_ne : joinSegsC (normCore (!isAbsL (('/' :: joinSegsC R) ++ '/' :: pl))
      (splitSeg (('/' :: joinSegsC R) ++ '/' :: pl))) ≠ [] := by
    rw [hfold]
    exact joinSegsC_ne_nil _ hGne hGgood
  unfold normalizeL
  rw [if_neg (by rw [hcs]; simp), if_neg hcore_ne, if_pos habs, hfold]
  by_cases ht : endsSlashL (('/' :: joinSegsC R) ++ '/' :: pl) = true
  · exact ⟨['/'], Or.inr rfl, by rw [if_pos ht]⟩
  · refine ⟨[], Or.inl rfl, ?_⟩
    rw [if_neg ht, List.append_nil]

/-- Resolving a canonical absolute path (with or without a trailing
separator) strips the trailing separator and changes nothing else. -/
theorem resolveL_canonical (cwd : List Char) (G : List (List Char))
    (hG : ∀ x ∈ G, x ≠ [] ∧ x ≠ ['.'] ∧ x ≠ dd ∧ '/' ∉ x) (hGne : G ≠ [])
    (T : List Char) (hT : T = [] ∨ T = ['/']) :
    resolveL cwd ('/' :: (joinSegsC G ++ T)) = '/' :: joinSegsC G := by
  have habs : isAbsL ('/' :: (joinSegsC G ++ T)) = true := by simp [isAbsL, hasPrefixL]
  unfold resolveL
  rw [if_pos habs]
  congr 1
  have hsplit : ∃ E : List (List Char), (∀ x ∈ E, x = []) ∧
      splitSeg (('/' :: (joinSegsC G ++ T)) ++ ['/']) = [] :: (G ++ E) := by
    have hstep : ('/' :: (joinSegsC G ++ T)) ++ ['/'] = '/' :: ((joinSegsC G ++ T) ++ ['/']) := rfl
    rcases hT with hT | hT
    · subst hT
      refine ⟨[[]], by intro x hx; simpa using hx, ?_⟩
      rw [hstep, splitSeg_cons_slash]
      rw [show (joinSegsC G ++ []) ++ ['/'] = joinSegsC G ++ '/' :: [] by simp]
      rw [splitSeg_append, splitSeg_joinSegsC G (fun x hx => (hG x hx).2.2.2) hGne]
      rfl
    · subst hT
      refine ⟨[[], []], by intro x hx; simp at hx; exact hx, ?_⟩
      rw [hstep, splitSeg_cons_slash]
      rw [show (joinSegsC G ++ ['/']) ++ ['/'] = joinSegsC G ++ '/' :: ['/'] by simp]
      rw [splitSeg_append, splitSeg_joinSegsC G (fun x hx => (hG x hx).2.2.2) hGne]
      rfl
  rcases hsplit with ⟨E, hE, hsplit⟩
  rw [hsplit]
  have hfold2 : normCore false ([] :: (G ++ E)) = G := by
    show (List.foldl (stepSeg false) [] ([] :: (G ++ E))).reverse = G
    rw [List.foldl_cons, stepSeg_nil_seg, List.foldl_append,
      foldl_good_push false G (fun x hx => ⟨(hG x hx).1, (hG x hx).2.1, (hG x hx).2.2.1⟩) [],
      List.append_nil, foldl_empty_segs false E hE, List.reverse_reverse]
  rw [hfold2]

/-- An accepted path is relative and its normalization stack keeps no
`..` segment. -/
theorem validate_ok_noDD (p : String) (hv : validatePath p = .ok ()) :
    isAbsL p.toList = false ∧
      ∀ x ∈ List.foldl (stepSeg true) [] (splitSeg p.toList), x ≠ dd := by
  have hcond : (hasInfixL dd (normalizeL p.toList) || isAbsL (normalizeL p.toList)) = false := by
    by_contra hb
    rw [Bool.not_eq_false] at hb
    unfold validatePath at hv
    rw [hb] at hv
    exact absurd hv (by simp)
  have hnoddN : hasInfixL dd (normalizeL p.toList) = false := by
    cases hA : hasInfixL dd (normalizeL p.toList)
    · rfl
    · rw [hA] at hcond; exact absurd hcond (by simp)
  have habsN : isAbsL (normalizeL p.toList) = false := by
    cases hA : isAbsL (normalizeL p.toList)
    · rfl
    · rw [hA] at hcond; exact absurd hcond (by simp)
  have habs : isAbsL p.toList = false := by
    cases hA : isAbsL p.toList
    · rfl
    · rw [normalizeL_abs p.toList hA] at habsN
      exact absurd habsN (by simp)
  refine ⟨habs, ?_⟩
  intro x hx hxdd
  subst hxdd
  have hplne : p.toList ≠ [] := by
    intro h
    rw [h] at hx
    exact absurd hx (by decide)
  have hmem_rev : dd ∈ (List.foldl (stepSeg true) [] (splitSeg p.toList)).reverse :=
    List.mem_reverse.mpr hx
  have hinf := hasInfixL_joinSegsC_of_mem dd _ hmem_rev
  have hinfN : hasInfixL dd (normalizeL p.toList) = true := by
    have hcore_ne : joinSegsC (normCore (!isAbsL p.toList) (splitSeg p.toList)) ≠ [] := by
      intro hc
      rw [habs] at hc
      rw [show normCore (!false) (splitSeg p.toList)
          = (List.foldl (stepSeg true) [] (splitSeg p.toList)).reverse from rfl] at hc
      rw [hc] at hinf
      exact absurd hinf (by decide)
    unfold normalizeL
    rw [if_neg hplne, if_neg hcore_ne, habs]
    rw [if_neg (show ¬(false = true) by simp)]
    rw [show normCore (!false) (splitSeg p.toList)
        = (List.foldl (stepSeg true) [] (splitSeg p.toList)).reverse from rfl]
    by_cases ht : endsSlashL p.toList = true
    · rw [if_pos ht]
      exact hasInfixL_append_right _ _ _ hinf
    · rw [if_neg ht]
      exact hinf
  rw [hinfN] at hnoddN
  exact absurd hnoddN (by simp)

/-- C2: with the storage root configured as `resolve(s)` against an
absolute working directory — exactly how `config.imageStoragePath` is
built — every path accepted by the validator resolves, via
`resolve(join(root, …))`, to an absolute path that keeps the root as a
textual prefix. -/
theorem getFullPath_within_root (cwd s p full : String)
    (hcwd : isAbsL cwd.toList = true)
    (hok : getFullPath { imageStoragePath := resolveP cwd s, cwd := cwd } p = .ok full) :
    hasPrefixL (resolveP cwd s).toList full.toList = true := by
  unfold getFullPath at hok
  cases hv : validatePath p with
  | error e => rw [hv] at hok; exact absurd hok (by simp)
  | ok u =>
    rw [hv] at hok
    dsimp only at hok
    have hfull : full = resolveP cwd (joinP (resolveP cwd s) p) := by
      simpa using hok.symm
    subst hfull
    obtain ⟨habs_pl, hnodd⟩ := validate_ok_noDD p hv
    obtain ⟨R, hRgood, hrootL⟩ := resolveL_shape cwd.toList s.toList hcwd
    have hrootTL : (resolveP cwd s).toList = '/' :: joinSegsC R := hrootL
    have hjoinTL : (joinP (resolveP cwd s) p).toList
        = joinL ('/' :: joinSegsC R) p.toList := by
      show joinL (resolveP cwd s).toList p.toList = _
      rw [hrootTL]
    have hfullTL : (resolveP cwd (joinP (resolveP cwd s) p)).toList
        = resolveL cwd.toList (joinL ('/' :: joinSegsC R) p.toList) := by
      show resolveL cwd.toList (joinP (resolveP cwd s) p).toList = _
      rw [hjoinTL]
    rw [hrootTL, hfullTL]
    by_cases hRne : R = []
    · subst hRne
      have habsx : isAbsL (joinL ('/' :: joinSegsC []) p.toList) = true := by
        show isAbsL (joinL ['/'] p.toList) = true
        unfold joinL
        rw [if_neg (by simp), if_neg (by simp)]
        by_cases hb : p.toList = []
        · rw [if_pos hb]
          exact normalizeL_abs ['/'] (by simp [isAbsL, hasPrefixL])
        · rw [if_neg hb]
          exact normalizeL_abs _ (by simp [isAbsL, hasPrefixL])
      unfold resolveL
      rw [if_pos habsx]
      simp [hasPrefixL, joinSegsC]
    · by_cases hpl : p.toList = []
      · have hx : joinL ('/' :: joinSegsC R) p.toList = normalizeL ('/' :: joinSegsC R) := by
          unfold joinL
          rw [if_neg (by simp), if_neg (by simp), if_pos hpl]
        rw [hx]
        obtain ⟨T, hT, hnorm⟩ := normalizeL_root R hRgood hRne
        rw [hnorm, resolveL_canonical cwd.toList R hRgood hRne T hT]
        exact hasPrefixL_refl _
      · have hx : joinL ('/' :: joinSegsC R) p.toList
            = normalizeL (('/' :: joinSegsC R) ++ '/' :: p.toList) := by
          unfold joinL
          rw [if_neg (by simp), if_neg (by simp), if_neg hpl]
        rw [hx]
        obtain ⟨T, hT, hnorm⟩ := normalizeL_root_join R hRgood hRne p.toList hnodd
        rw [hnorm]
        set P0r := (List.foldl (stepSeg true) [] (splitSeg p.toList)).reverse with hP0r
        have hGgood : ∀ x ∈ R ++ P0r, x ≠ [] ∧ x ≠ ['.'] ∧ x ≠ dd ∧ '/' ∉ x := by
          intro x hx2
          rcases List.mem_append.mp hx2 with h | h
          · exact hRgood x h
          · exact stackT_good p.toList hnodd x h
        have hGne : R ++ P0r ≠ [] := by
          intro h
          exact hRne (List.append_eq_nil.mp h).1
        rw [resolveL_canonical cwd.toList (R ++ P0r) hGgood hGne T hT]
        by_cases hP0 : P0r = []
        · rw [hP0, List.append_nil]
          exact hasPrefixL_refl _
        · rw [joinSegsC_append R P0r hRne hP0]
          show hasPrefixL ('/' :: joinSegsC R)
            ('/' :: (joinSegsC R ++ '/' :: joinSegsC P0r)) = true
          simp only [hasPrefixL, Bool.and_eq_true, decide_eq_true_eq]
          exact ⟨trivial, hasPrefixL_self_append _ _⟩

/-- Witness for C2 at `a/b.png` under root `resolve("/srv", "uploads")`. -/
theorem getFullPath_within_root_witness :
    isAbsL (String.toList "/srv") = true ∧
      getFullPath { imageStoragePath := resolveP "/srv" "uploads", cwd := "/srv" }
          "a/b.png" = .ok "/srv/uploads/a/b.png" ∧
      hasPrefixL (resolveP "/srv" "uploads").toList
          (String.toList "/srv/uploads/a/b.png") = true :=
  ⟨by decide, by rfl,
    getFullPath_within_root "/srv" "uploads" "a/b.png" "/srv/uploads/a/b.png"
      (by decide) (by rfl)⟩

/-- Dropping a prefix never lengthens a list. -/
theorem length_dropWhile_le (p : Char → Bool) :
    ∀ l : List Char, (l.dropWhile p).length ≤ l.length := by
  intro l
  induction l with
  | nil => exact Nat.le_refl _
  | cons a t ih =>
    by_cases hpa : p a = true
    · rw [List.dropWhile_cons_of_pos hpa]
      exact Nat.le_succ_of_le ih
    · rw [List.dropWhile_cons_of_neg hpa]

/-- `dirname` never returns the empty path. -/
theorem dirnameL_ne_nil (cs : List Char) : dirnameL cs ≠ [] := by
  unfold dirnameL
  by_cases h0 : cs = []
  · rw [if_pos h0]; simp
  · rw [if_neg h0]
    by_cases h1 : (cs.reverse.dropWhile (fun c => c = '/') |>.dropWhile (fun c => c ≠ '/')).length ≤ 1
    · rw [if_pos h1]
      by_cases h2 : isAbsL cs = true <;> simp [h2]
    · rw [if_neg h1]
      by_cases h2 : isAbsL cs = true ∧
          (cs.reverse.dropWhile (fun c => c = '/') |>.dropWhile (fun c => c ≠ '/')).length = 2
      · rw [if_pos h2]; simp
      · rw [if_neg h2]
        intro hc
        have := congrArg List.length hc
        simp only [List.length_reverse, List.length_drop, List.length_nil] at this
        omega

/-- `dirname` never lengthens a nonempty path. -/
theorem dirnameL_length_le (cs : List Char) (hne : cs ≠ []) :
    (dirnameL cs).length ≤ cs.length := by
  have hpos : 1 ≤ cs.length := List.length_pos.mpr hne
  have hr2 : (cs.reverse.dropWhile (fun c => c = '/')
      |>.dropWhile (fun c => c ≠ '/')).length ≤ cs.length := by
    calc (cs.reverse.dropWhile (fun c => c = '/') |>.dropWhile (fun c => c ≠ '/')).length
        ≤ (cs.reverse.dropWhile (fun c => c = '/')).length := length_dropWhile_le _ _
      _ ≤ cs.reverse.length := length_dropWhile_le _ _
      _ = cs.length := List.length_reverse cs
  unfold dirnameL
  rw [if_neg hne]
  by_cases h1 : (cs.reverse.dropWhile (fun c => c = '/') |>.dropWhile (fun c => c ≠ '/')).length ≤ 1
  · rw [if_pos h1]
    by_cases h2 : isAbsL cs = true <;> simp [h2, hpos]
  · rw [if_neg h1]
    by_cases h2 : isAbsL cs = true ∧
        (cs.reverse.dropWhile (fun c => c = '/') |>.dropWhile (fun c => c ≠ '/')).length = 2
    · rw [if_pos h2]
      simp only [List.length_cons, List.length_nil]
      omega
    · rw [if_neg h2]
      simp only [List.length_reverse, List.length_drop]
      omega

/-- On a path that does not end in a separator, `dirname` strictly
shortens. -/
theorem dirnameL_length_lt (cs : List Char) (h2 : 2 ≤ cs.length)
    (hlast : endsSlashL cs = false) : (dirnameL cs).length < cs.length := by
  have hne : cs ≠ [] := by intro h; rw [h] at h2; simp at h2
  obtain ⟨c, w, hrev⟩ : ∃ c w, cs.reverse = c :: w := by
    cases hr : cs.reverse with
    | nil =>
      exfalso
      have := congrArg List.length hr
      simp only [List.length_reverse, List.length_nil] at this
      omega
    | cons c w => exact ⟨c, w, rfl⟩
  have hcslash : ¬(c = '/') := by
    intro hc
    subst hc
    unfold endsSlashL at hlast
    rw [hrev] at hlast
    simp [hasPrefixL] at hlast
  have hr2small : (cs.reverse.dropWhile (fun c => c = '/')
      |>.dropWhile (fun c => c ≠ '/')).length ≤ cs.length - 1 := by
    rw [hrev, List.dropWhile_cons_of_neg (by simpa using hcslash),
      List.dropWhile_cons_of_pos (by simpa using hcslash)]
    calc (w.dropWhile (fun c => c ≠ '/')).length ≤ w.length := length_dropWhile_le _ _
      _ = cs.length - 1 := by
          have := congrArg List.length hrev
          simp only [List.length_reverse, List.length_cons] at this
          omega
  unfold dirnameL
  rw [if_neg hne]
  by_cases hb1 : (cs.reverse.dropWhile (fun c => c = '/') |>.dropWhile (fun c => c ≠ '/')).length ≤ 1
  · rw [if_pos hb1]
    by_cases hb2 : isAbsL cs = true <;> simp [hb2] <;> omega
  · rw [if_neg hb1]
    by_cases hb2 : isAbsL cs = true ∧
        (cs.reverse.dropWhile (fun c => c = '/') |>.dropWhile (fun c => c ≠ '/')).length = 2
    · rw [if_pos hb2]
      simp only [List.length_cons, List.length_nil]
      omega
    · rw [if_neg hb2]
      simp only [List.length_reverse, List.length_drop]
      omega

/-- A canonical absolute path ends in a non-separator character. -/
theorem joinSegsC_last_ne_slash (G : List (List Char)) (hGne : G ≠ [])
    (hG : ∀ x ∈ G, x ≠ [] ∧ '/' ∉ x) :
    ∃ c w, (joinSegsC G).reverse = c :: w ∧ c ≠ '/' := by
  induction G with
  | nil => exact absurd rfl hGne
  | cons s rest ih =>
    cases rest with
    | nil =>
      have hs := hG s (List.mem_cons_self _ _)
      obtain ⟨c, w, hrev⟩ : ∃ c w, s.reverse = c :: w := by
        cases hr : s.reverse with
        | nil =>
          exfalso
          exact hs.1 (by simpa using congrArg List.reverse hr)
        | cons c w => exact ⟨c, w, rfl⟩
      refine ⟨c, w, hrev, ?_⟩
      intro hc
      subst hc
      exact hs.2 (by
        have : '/' ∈ s.reverse := by rw [hrev]; exact List.mem_cons_self _ _
        simpa using this)
    | cons s2 r2 =>
      obtain ⟨c, w, hrev, hc⟩ := ih (by simp)
        (fun x hx => hG x (List.mem_cons_of_mem s hx))
      refine ⟨c, w ++ '/' :: s.reverse, ?_, hc⟩
      show (s ++ '/' :: joinSegsC (s2 :: r2)).reverse = c :: (w ++ '/' :: s.reverse)
      rw [List.reverse_append, List.reverse_cons, hrev]
      simp

/-- The canonical absolute paths produced by `resolve` do not end in a
separator. -/
theorem endsSlashL_canonical (G : List (List Char)) (hGne : G ≠ [])
    (hG : ∀ x ∈ G, x ≠ [] ∧ '/' ∉ x) :
    endsSlashL ('/' :: joinSegsC G) = false := by
  obtain ⟨c, w, hrev, hc⟩ := joinSegsC_last_ne_slash G hGne hG
  unfold endsSlashL
  rw [List.reverse_cons, hrev]
  show hasPrefixL ['/'] (c :: (w ++ ['/'])) = false
  simp [hasPrefixL, hc, Ne.symm hc]

/-- A failed lookup stays failed after filtering. -/
theorem lookup_filter_none (x full : String) :
    ∀ l : List (String × List Nat), l.lookup x = none →
      (l.filter (fun e => e.1 != full)).lookup x = none := by
  intro l
  induction l with
  | nil => intro _; rfl
  | cons e t ih =>
    rcases e with ⟨k, v⟩
    intro h
    by_cases hk : (x == k) = true
    · exfalso
      unfold List.lookup at h
      rw [hk] at h
      exact absurd h (by simp)
    · have ht : t.lookup x = none := by
        unfold List.lookup at h
        rw [Bool.not_eq_true] at hk
        rw [hk] at h
        exact h
      rw [List.filter_cons]
      by_cases hf : (k != full) = true
      · rw [if_pos hf]
        unfold List.lookup
        rw [Bool.not_eq_true] at hk
        rw [hk]
        exact ih ht
      · rw [if_neg hf]
        exact ih ht

/-- A lookup skips a binding with a different key. -/
theorem lookup_cons_ne (x k : String) (v : List Nat) (l : List (String × List Nat))
    (h : x ≠ k) : ((k, v) :: l).lookup x = l.lookup x := by
  have hb : (x == k) = false := beq_eq_false_iff_ne.mpr h
  show (match x == k with | true => some v | false => List.lookup x l) = List.lookup x l
  rw [hb]

/-- The chain of a directory starts with that directory. -/
theorem mem_dirChain_self (s : String) : s ∈ dirChain s := by
  show s ∈ dirChainAux (s.length + 1) s
  unfold dirChainAux
  by_cases h : dirnameP s = s
  · rw [if_pos h]; exact List.mem_singleton.mpr rfl
  · rw [if_neg h]; exact List.mem_cons_self _ _

/-- Chain elements are never longer than the starting directory. -/
theorem dirChainAux_length_le :
    ∀ (fuel : Nat) (s : String), s ≠ "" →
      ∀ x ∈ dirChainAux fuel s, x.length ≤ s.length := by
  intro fuel
  induction fuel with
  | zero =>
    intro s _ x hx
    rw [List.mem_singleton.mp hx]
  | succ n ih =>
    intro s hs x hx
    unfold dirChainAux at hx
    by_cases h : dirnameP s = s
    · rw [if_pos h] at hx
      rw [List.mem_singleton.mp hx]
    · rw [if_neg h] at hx
      rcases List.mem_cons.mp hx with hx | hx
      · rw [hx]
      · have hd_ne : dirnameP s ≠ "" := by
          intro hdn
          exact dirnameL_ne_nil s.toList (by simpa using congrArg String.toList hdn)
        have h1 := ih (dirnameP s) hd_ne x hx
        have h2 : (dirnameP s).length ≤ s.length := by
          show (dirnameL s.toList).length ≤ s.toList.length
          exact dirnameL_length_le s.toList
            (fun hnil => hs (String.ext (by simpa using hnil)))
        omega

/-- A canonical absolute file path is strictly below its parent chain. -/
theorem not_mem_dirChain_parent (f : String)
    (h2 : 2 ≤ f.toList.length) (hlast : endsSlashL f.toList = false) :
    f ∉ dirChain (dirnameP f) := by
  intro hmem
  have hd_ne : dirnameP f ≠ "" := by
    intro hdn
    exact dirnameL_ne_nil f.toList (by simpa using congrArg String.toList hdn)
  have h1 := dirChainAux_length_le _ (dirnameP f) hd_ne f hmem
  have h3 : (dirnameP f).length < f.length :=
    dirnameL_length_lt f.toList h2 hlast
  omega

/-- C4: saving twice at the same path both succeed — a second save is not
blocked by the occupied path — and a read afterwards returns the second
content. -/
theorem saveFile_overwrite (env : Env) (fs : FSState) (p : String)
    (B1 B2 : List Nat) (fs1 : FSState) (r1 : String × Nat)
    (hcwd : isAbsL env.cwd.toList = true)
    (h1 : saveFile env fs p B1 = .ok (fs1, r1)) :
    ∃ fs2 r2, saveFile env fs1 p B2 = .ok (fs2, r2) ∧
      readFileFromStorage env fs2 p = .ok B2 := by
  unfold saveFile at h1
  cases hf : getFullPath env p with
  | error e => rw [hf] at h1; exact absurd h1 (by simp)
  | ok full =>
    rw [hf] at h1
    dsimp only at h1
    cases hm : mkdirRecFS fs (dirnameP full) with
    | none => rw [hm] at h1; exact absurd h1 (by simp)
    | some fsm =>
      rw [hm] at h1
      dsimp only at h1
      cases hw : writeFileFS fsm full B1 with
      | none => rw [hw] at h1; exact absurd h1 (by simp)
      | some fs1w =>
        rw [hw] at h1
        dsimp only at h1
        cases hst : statFS fs1w full with
        | none => rw [hst] at h1; exact absurd h1 (by simp)
        | some st =>
          rw [hst] at h1
          dsimp only at h1
          have hfs1 : fs1 = fs1w := by
            simpa using congrArg (fun x => (x.toOption.map Prod.fst).getD fs1w) h1.symm
          subst hfs1
          have hmg : ¬ (dirChain (dirnameP full)).any (isFileFS fs) = true ∧
              fsm = { fs with dirs := dirChain (dirnameP full) ++ fs.dirs } := by
            unfold mkdirRecFS at hm
            by_cases hg : (dirChain (dirnameP full)).any (isFileFS fs) = true
            · rw [if_pos hg] at hm; exact absurd hm (by simp)
            · rw [if_neg hg] at hm
              exact ⟨hg, by simpa using hm.symm⟩
          obtain ⟨hmguard, hfsm⟩ := hmg
          have hwg : fsm.dirs.contains full = false ∧
              fsm.dirs.contains (dirnameP full) = true ∧
              fs1 = { fsm with
                files := (full, B1) :: fsm.files.filter (fun e => e.1 != full) } := by
            unfold writeFileFS at hw
            by_cases hg1 : fsm.dirs.contains full = true
            · rw [if_pos hg1] at hw; exact absurd hw (by simp)
            · rw [if_neg hg1] at hw
              by_cases hg2 : fsm.dirs.contains (dirnameP full) = true
              · rw [if_pos hg2] at hw
                exact ⟨by simpa using hg1, hg2, by simpa using hw.symm⟩
              · rw [if_neg hg2] at hw; exact absurd hw (by simp)
          obtain ⟨hw1, hw2, hfs1eq⟩ := hwg
          have hfull_eq : full = resolveP env.cwd (joinP env.imageStoragePath p) := by
            unfold getFullPath at hf
            cases hv : validatePath p with
            | error e => rw [hv] at hf; exact absurd hf (by simp)
            | ok u => rw [hv] at hf; dsimp only at hf; simpa using hf.symm
          obtain ⟨G, hGgood, hGshape⟩ := resolveL_shape env.cwd.toList
            (joinP env.imageStoragePath p).toList hcwd
          have hfullTL : full.toList = '/' :: joinSegsC G := by
            rw [hfull_eq]; exact hGshape
          by_cases hGne : G = []
          · exfalso
            subst hGne
            have hfull_root : full = "/" := String.ext (by simpa using hfullTL)
            rw [hfull_root] at hfsm hw1
            rw [hfsm] at hw1
            have hdc : dirChain (dirnameP "/") = ["/"] := by rfl
            simp [hdc] at hw1
          · have hjne : joinSegsC G ≠ [] :=
              joinSegsC_ne_nil G hGne (fun x hx => (hGgood x hx).1)
            have hlen2 : 2 ≤ full.toList.length := by
              rw [hfullTL]
              simp only [List.length_cons]
              have := List.length_pos.mpr hjne
              omega
            have hlast : endsSlashL full.toList = false := by
              rw [hfullTL]
              exact endsSlashL_canonical G hGne
                (fun x hx => ⟨(hGgood x hx).1, (hGgood x hx).2.2.2⟩)
            have hnotmem : full ∉ dirChain (dirnameP full) :=
              not_mem_dirChain_parent full hlen2 hlast
            have hchain_nofile : ∀ x ∈ dirChain (dirnameP full),
                fs.files.lookup x = none := by
              intro x hx
              have hnf := (List.any_eq_false.mp (by
                cases hA : (dirChain (dirnameP full)).any (isFileFS fs)
                · rfl
                · exact absurd hA hmguard)) x hx
              unfold isFileFS at hnf
              cases hlk : fs.files.lookup x with
              | none => rfl
              | some d => exact absurd (by rw [hlk]; rfl) hnf
            have hfsm_files : fsm.files = fs.files := by rw [hfsm]
            have hfs1_files : fs1.files
                = (full, B1) :: fs.files.filter (fun e => e.1 != full) := by
              rw [hfs1eq, hfsm_files]
            have hfs1_dirs : fs1.dirs = fsm.dirs := by rw [hfs1eq]
            have hm2 : mkdirRecFS fs1 (dirnameP full)
                = some { fs1 with dirs := dirChain (dirnameP full) ++ fs1.dirs } := by
              unfold mkdirRecFS
              rw [if_neg ?hguard]
              case hguard =>
                intro hany
                rcases List.any_eq_true.mp hany with ⟨x, hx, hfile⟩
                unfold isFileFS at hfile
                have hxne : x ≠ full := fun he => hnotmem (he ▸ hx)
                rw [hfs1_files, lookup_cons_ne x full B1 _ hxne,
                  lookup_filter_none x full fs.files (hchain_nofile x hx)] at hfile
                exact absurd hfile (by simp)
            have hnd2 : (dirChain (dirnameP full) ++ fs1.dirs).contains full = false := by
              cases hA : (dirChain (dirnameP full) ++ fs1.dirs).contains full
              · rfl
              · exfalso
                have hmem : full ∈ dirChain (dirnameP full) ++ fs1.dirs := by
                  simpa using hA
                rcases List.mem_append.mp hmem with h | h
                · exact hnotmem h
                · rw [hfs1_dirs] at h
                  have : fsm.dirs.contains full = true := by simpa using h
                  rw [this] at hw1
                  exact absurd hw1 (by simp)
            have hpar2 : (dirChain (dirnameP full) ++ fs1.dirs).contains (dirnameP full) = true := by
              have : dirnameP full ∈ dirChain (dirnameP full) ++ fs1.dirs :=
                List.mem_append.mpr (Or.inl (mem_dirChain_self _))
              simpa using this
            have hw2' : writeFileFS { fs1 with dirs := dirChain (dirnameP full) ++ fs1.dirs } full B2
                = some { fs1 with
                    dirs := dirChain (dirnameP full) ++ fs1.dirs,
                    files := (full, B2) :: fs1.files.filter (fun e => e.1 != full) } := by
              unfold writeFileFS
              rw [if_neg (fun hc => by rw [hc] at hnd2; exact absurd hnd2 (by decide)),
                if_pos hpar2]
            have hstat2 : statFS { fs1 with
                dirs := dirChain (dirnameP full) ++ fs1.dirs,
                files := (full, B2) :: fs1.files.filter (fun e => e.1 != full) } full
                = some (false, B2.length) := by
              unfold statFS
              rw [show ({ fs1 with
                  dirs := dirChain (dirnameP full) ++ fs1.dirs,
                  files := (full, B2) :: fs1.files.filter (fun e => e.1 != full) } : FSState).files
                = (full, B2) :: fs1.files.filter (fun e => e.1 != full) from rfl]
              rw [List.lookup_cons_self]
            refine ⟨{ fs1 with
                dirs := dirChain (dirnameP full) ++ fs1.dirs,
                files := (full, B2) :: fs1.files.filter (fun e => e.1 != full) },
              (p, B2.length), ?_, ?_⟩
            · unfold saveFile
              rw [hf]
              dsimp only
              rw [hm2]
              dsimp only
              rw [hw2']
              dsimp only
              rw [hstat2]
            · unfold readFileFromStorage
              rw [hf]
              dsimp only
              unfold readFileFS
              rw [if_neg (fun hc => by rw [hc] at hnd2; exact absurd hnd2 (by decide)),
                List.lookup_cons_self]

/-- Witness for C4: overwrite `a/b.png` in the concrete store. -/
theorem saveFile_overwrite_witness :
    isAbsL (String.toList "/srv") = true ∧
      saveFile testEnv fs0 "a/b.png" [1, 2, 3] = .ok (fsA, "a/b.png", 3) ∧
      ∃ fs2 r2, saveFile testEnv fsA "a/b.png" [9, 9] = .ok (fs2, r2) ∧
        readFileFromStorage testEnv fs2 "a/b.png" = .ok [9, 9] :=
  ⟨by decide, rfl,
    saveFile_overwrite testEnv fs0 "a/b.png" [1, 2, 3] [9, 9] fsA ("a/b.png", 3)
      (by decide) rfl⟩

end ImageStorage
